import Mathlib

/-!
Verification of the wdf web-exposure scanner (Go) against its specification.

The Go sources are embedded shallowly: pure functions become Lean functions,
machine ints become `Int`/`Nat`, Go maps become association lists whose list
order models the (unspecified) map iteration order, channels/goroutines become
explicit folds over the jobs with the completion order quantified as an
arbitrary permutation, and network I/O becomes an oracle function passed as a
parameter.  File and line references point into the Go sources:
`internal/scanner/{analyze,remediate,normalize,scanner,http}.go` and
`internal/discover/{robots,sitemap}.go`.
-/

namespace Wdf

/-! ## String helpers

Go library functions used by the scanner (`strings.TrimSpace`,
`strings.Contains`, `strings.EqualFold`, `unicode.IsSpace`) modelled on
`List Char` / `String`. -/

/-- Models Go `unicode.IsSpace`: the Unicode White_Space property. -/
def goIsSpace (c : Char) : Bool :=
  c = ' ' || c = '\t' || c = '\n' || c = Char.ofNat 11 || c = Char.ofNat 12 ||
  c = '\r' || c = Char.ofNat 0x85 || c = Char.ofNat 0xA0 ||
  c = Char.ofNat 0x1680 ||
  (0x2000 ≤ c.toNat && c.toNat ≤ 0x200A) ||
  c = Char.ofNat 0x2028 || c = Char.ofNat 0x2029 || c = Char.ofNat 0x202F ||
  c = Char.ofNat 0x205F || c = Char.ofNat 0x3000

/-- Drop Unicode whitespace from both ends of a character list. -/
def trimChars (l : List Char) : List Char :=
  ((l.dropWhile goIsSpace).reverse.dropWhile goIsSpace).reverse

/-- Models Go `strings.TrimSpace`. -/
def goTrimSpace (s : String) : String := ⟨trimChars s.data⟩

/-- Is `p` a prefix of `l` (exact characters)? -/
def isPre : List Char → List Char → Bool
  | [], _ => true
  | _ :: _, [] => false
  | p :: ps, c :: cs => p = c && isPre ps cs

/-- Is `pat` (given in lowercase) a case-insensitive prefix of `l`?
Models the ASCII case folding of Go regexp `(?i)` / `strings.EqualFold`
on the ASCII patterns the scanner uses. -/
def isPreCI : List Char → List Char → Bool
  | [], _ => true
  | _ :: _, [] => false
  | p :: ps, c :: cs => p = c.toLower && isPreCI ps cs

/-- Does `hay` contain `pat` as a contiguous sublist?  Models
Go `strings.Contains` after both sides have been lowercased by the caller. -/
def listContains (hay pat : List Char) : Bool :=
  match hay with
  | [] => isPre pat []
  | _ :: rest => isPre pat hay || listContains rest pat

/-- Go `strings.Contains(s, sub)` on strings. -/
def strContains (s sub : String) : Bool := listContains s.data sub.data

/-- Go `strings.ToLower`, modelled with ASCII case mapping (adequate for the
ASCII tokens the scanner compares). -/
def lowerStr (s : String) : String := ⟨s.data.map Char.toLower⟩

/-- Go `strings.HasPrefix`. -/
def strHasPrefix (s pre : String) : Bool := isPre pre.data s.data

/-- Go `strings.EqualFold`, modelled as equality after ASCII lowering
(adequate for the ASCII tokens compared by the scanner). -/
def eqFold (a b : String) : Bool := lowerStr a = lowerStr b

/-- Split a character list on commas (Go `strings.Split(v, ",")`). -/
def splitComma : List Char → List (List Char)
  | [] => [[]]
  | ',' :: rest => [] :: splitComma rest
  | c :: rest =>
    match splitComma rest with
    | s :: ss => (c :: s) :: ss
    | [] => [[c]]

/-! ## Severity and rule set (`internal/scanner`, part_001)

Go represents `Severity` as the strings "high"/"medium"/"low"; only those three
constants are ever constructed, so it is embedded as a three-value inductive.
A compiled `*regexp.Regexp` is embedded as an opaque `String → Bool` matcher
(`Option` because Go compares `p.Re != nil`). -/

inductive Severity where
  | low
  | medium
  | high
deriving DecidableEq, Repr

/-- Models `severityRank` (analyze.go:151): high 3, medium 2, default 1. -/
def severityRank : Severity → Nat
  | .high => 3
  | .medium => 2
  | .low => 1

structure Pattern where
  name : String
  severity : Severity
  re : Option (String → Bool)

structure SensitivePathRule where
  path : String
  critical : Bool

structure RuleSet where
  sensitivePathRules : List SensitivePathRule
  patterns : List Pattern

structure AnalysisFlags where
  noIndex : Bool
  directoryListing : Bool
  confirmedSecret : Bool
deriving DecidableEq, Repr

structure Analysis where
  severity : Severity
  reasons : List String
  patterns : List String
  interesting : Bool
deriving DecidableEq, Repr

/-! ## Analysis engine (analyze.go) -/

/-- Models `dedupeStrings` (analyze.go:162): trim each entry, drop empties,
keep the first occurrence of each distinct string. -/
def dedupeGo (seen : List String) : List String → List String
  | [] => []
  | s :: rest =>
    let t := goTrimSpace s
    if t = "" then dedupeGo seen rest
    else if t ∈ seen then dedupeGo seen rest
    else t :: dedupeGo (t :: seen) rest

/-- Models `dedupeStrings` (analyze.go:162); Go returns nil for empty input,
which is embedded as the empty list. -/
def dedupeStrings (l : List String) : List String := dedupeGo [] l

/-- Models `containsIndexOf` (analyze.go:107). -/
def containsIndexOf (s : String) : Bool :=
  strContains (lowerStr s) "index of /"

/-- Models `hasNoIndexDirective` (analyze.go:111): lowercase and trim, split on
commas, look for a `noindex` or `none` token. -/
def hasNoIndexDirective (v : String) : Bool :=
  let v := lowerStr (goTrimSpace v)
  if v = "" then false
  else (splitComma v.data).any fun p =>
    let t := trimChars p
    t = "noindex".data || t = "none".data

/-- Models `firstHeader` (analyze.go:142).  The Go map iteration order is
unspecified; the association-list order stands for one such iteration order.
Returns the first value of the first entry whose key matches `key`
case-insensitively and whose value list is non-empty. -/
def firstHeader (h : List (String × List String)) (key : String) : String :=
  match h with
  | [] => ""
  | (k, v) :: t =>
    if eqFold k key ∧ v ≠ [] then v.headD "" else firstHeader t key

/-- Double-quote character. -/
def dq : Char := Char.ofNat 34

/-- Single-quote character. -/
def sq : Char := Char.ofNat 39

/-- Space class of Go regexp `\s`: `[\t\n\f\r ]`. -/
def reSpace (c : Char) : Bool :=
  c = '\t' || c = '\n' || c = Char.ofNat 12 || c = '\r' || c = ' '

/-- Word character for the Go regexp `\b` boundary: `[A-Za-z0-9_]`. -/
def isWordChar (c : Char) : Bool := c.isAlphanum || c = '_'

/-- Does the segment contain `name\s*=\s*["']robots["']` (case-insensitive)
starting at some position?  Helper for the `metaRobotsRe` model. -/
def nameRobotsAt (l : List Char) : Bool :=
  if isPreCI "name".data l then
    let r1 := (l.drop 4).dropWhile reSpace
    match r1 with
    | '=' :: r2 =>
      match r2.dropWhile reSpace with
      | q :: r3 =>
        (q = dq || q = sq) && isPreCI "robots".data r3 &&
          (match r3.drop 6 with
           | q2 :: _ => q2 = dq || q2 = sq
           | [] => false)
      | [] => false
    | _ => false
  else false

/-- Does `name\s*=\s*["']robots["']` occur anywhere in the segment? -/
def nameRobotsOccurs : List Char → Bool
  | [] => nameRobotsAt []
  | l@(_ :: rest) => nameRobotsAt l || nameRobotsOccurs rest

/-- Try to match `metaRobotsRe` = `(?is)<meta[^>]+name\s*=\s*["']robots["'][^>]*>`
at the head of `l`.  Since every class in the pattern excludes `>`, a match at
this position runs exactly to the first following `>`, and requires the
`name=...robots` attribute to occur in between at offset at least one.
Returns the matched text. -/
def metaTryAt (l : List Char) : Option (List Char) :=
  if isPreCI "<meta".data l then
    let rest := l.drop 5
    let seg := rest.takeWhile (· ≠ '>')
    if seg.length < rest.length then
      -- a closing > exists; [^>]+ needs at least one char before name=
      if (match seg with
          | [] => false
          | _ :: segTail => nameRobotsOccurs segTail) then
        some (l.take 5 ++ seg ++ ['>'])
      else none
    else none
  else none

/-- Leftmost match of `metaRobotsRe`, models `metaRobotsRe.FindString`. -/
def metaScan : List Char → Option (List Char)
  | [] => metaTryAt []
  | l@(_ :: rest) =>
    match metaTryAt l with
    | some m => some m
    | none => metaScan rest

/-- Try to match `contentAttr` = `(?is)\bcontent\s*=\s*["']([^"']+)["']` at the
head of `l`, where `prev` is the character just before `l` (for `\b`).
Returns the first capture group. -/
def contentTryAt (prev : Option Char) (l : List Char) : Option (List Char) :=
  let boundary := match prev with
    | none => true
    | some c => !isWordChar c
  if boundary && isPreCI "content".data l then
    let r1 := (l.drop 7).dropWhile reSpace
    match r1 with
    | '=' :: r2 =>
      match r2.dropWhile reSpace with
      | q :: r3 =>
        if q = dq || q = sq then
          let cap := r3.takeWhile fun c => c ≠ dq ∧ c ≠ sq
          if cap ≠ [] ∧ r3.drop cap.length ≠ [] then some cap else none
        else none
      | [] => none
    | _ => none
  else false |> fun _ => none

/-- Leftmost match of `contentAttr`, models `contentAttr.FindStringSubmatch`
(the capture group). -/
def contentScan (prev : Option Char) : List Char → Option (List Char)
  | [] => contentTryAt prev []
  | l@(c :: rest) =>
    match contentTryAt prev l with
    | some cap => some cap
    | none => contentScan (some c) rest

/-- Models `hasMetaNoIndex` (analyze.go:127): find a `<meta name="robots" ...>`
tag, extract its `content` attribute, and test it for a noindex directive. -/
def hasMetaNoIndex (html : String) : Bool :=
  if html = "" then false
  else
    match metaScan html.data with
    | none => false
    | some m =>
      match contentScan none m with
      | none => false
      | some cap => hasNoIndexDirective ⟨cap⟩

/-- Running state of `analyze` (the local variables `a`, `reasons`, `matched`,
`flags` of analyze.go:20). -/
structure AnalyzeState where
  severity : Severity
  interesting : Bool
  reasons : List String
  matched : List String
  flags : AnalysisFlags
deriving DecidableEq, Repr

/-- One iteration of the pattern loop (analyze.go:41-58). -/
def patternStep (snippet : String) (st : AnalyzeState) (p : Pattern) : AnalyzeState :=
  match p.re with
  | none => st
  | some f =>
    if f snippet then
      let dl := st.flags.directoryListing || (p.name = "Directory listing")
      let cs := st.flags.confirmedSecret ||
        (p.severity = Severity.high && p.name ≠ "Directory listing")
      { severity :=
          if severityRank p.severity > severityRank st.severity then p.severity
          else st.severity
        interesting := true
        reasons := st.reasons ++ ["matched pattern: " ++ p.name]
        matched := st.matched ++ [p.name]
        flags := { st.flags with directoryListing := dl, confirmedSecret := cs } }
    else st

/-- Content-Disposition and X-Robots-Tag header checks (analyze.go:71-83),
given the two header lookups.  Go guards the block with `headers != nil`;
on a nil or empty map both conditions are false, so running the block
unconditionally on the association list is observably identical. -/
def headerStep (cd xr : String) (st : AnalyzeState) : AnalyzeState :=
  let st1 :=
    if cd ≠ "" ∧ strContains (lowerStr cd) "attachment" then
      { st with
        severity := if st.severity = Severity.low then Severity.medium else st.severity
        interesting := true
        reasons := st.reasons ++ ["downloadable attachment response"] }
    else st
  if hasNoIndexDirective xr then
    { st1 with
      flags := { st1.flags with noIndex := true }
      reasons := st1.reasons ++ ["X-Robots-Tag indicates noindex"] }
  else st1

/-- Everything `analyze` (analyze.go:20) computes before the final noindex
downgrade — sensitive-path rule, pattern loop, index-of heuristic, header
checks and meta-robots check, in source order — with the two header lookups
passed in as `cd` (Content-Disposition) and `xr` (X-Robots-Tag). -/
def analyzeCore (status : Int) (cd xr : String) (snippet : String)
    (rs : RuleSet) (isSensitive critical : Bool) : AnalyzeState :=
  let st0 : AnalyzeState :=
    ⟨Severity.low, false, [], [], ⟨false, false, false⟩⟩
  let st1 :=
    if isSensitive ∧ status = 200 then
      if critical then
        { st0 with severity := Severity.high, interesting := true
                   reasons := ["200 OK on critical sensitive path"] }
      else
        { st0 with severity := Severity.medium, interesting := true
                   reasons := ["200 OK on sensitive path"] }
    else st0
  let st2 :=
    if snippet ≠ "" then rs.patterns.foldl (patternStep snippet) st1 else st1
  let st3 :=
    if containsIndexOf snippet then
      { st2 with
        flags := { st2.flags with directoryListing := true }
        interesting := true
        reasons := st2.reasons ++ ["directory listing detected"]
        severity :=
          if st2.severity ≠ Severity.high then Severity.high else st2.severity }
    else st2
  let st4 := headerStep cd xr st3
  if hasMetaNoIndex snippet then
    { st4 with
      flags := { st4.flags with noIndex := true }
      reasons := st4.reasons ++ ["meta robots indicates noindex"] }
  else st4

/-- The pre-downgrade state of `analyze` on the raw header map: the header
values enter only through the two `firstHeader` lookups of
analyze.go:72 and analyze.go:79. -/
def analyzePre (status : Int) (headers : List (String × List String))
    (snippet : String) (rs : RuleSet) (isSensitive critical : Bool) :
    AnalyzeState :=
  analyzeCore status (firstHeader headers "Content-Disposition")
    (firstHeader headers "X-Robots-Tag") snippet rs isSensitive critical

/-- The final downgrade pass of `analyze` (analyze.go:90-100): if noindex was
signalled and neither a confirmed secret nor a directory listing was found,
lower the severity one step. -/
def applyNoIndexDowngrade (st : AnalyzeState) : AnalyzeState :=
  if st.flags.noIndex ∧ ¬st.flags.confirmedSecret ∧ ¬st.flags.directoryListing then
    match st.severity with
    | .high =>
      { st with severity := Severity.medium
                reasons := st.reasons ++ ["severity downgraded due to explicit noindex"] }
    | .medium =>
      { st with severity := Severity.low
                reasons := st.reasons ++ ["severity downgraded due to explicit noindex"] }
    | .low => st
  else st

/-- Models `analyze` (analyze.go:20-105).  The unused Go parameter `path` is
omitted; `headers` is the association list standing for the Go map. -/
def analyze (status : Int) (headers : List (String × List String))
    (snippet : String) (rs : RuleSet) (isSensitive critical : Bool) :
    Analysis × AnalysisFlags :=
  let st := applyNoIndexDowngrade (analyzePre status headers snippet rs isSensitive critical)
  (⟨st.severity, dedupeStrings st.reasons, dedupeStrings st.matched, st.interesting⟩,
   st.flags)

/-! ## Remediation advisor (remediate.go) -/

/-- Models Go `path/filepath.Ext` scanning the reversed character list: walk
back from the end, stop at a path separator, return from the last dot.
`acc` accumulates the characters already passed, in original order. -/
def extGo : List Char → List Char → String
  | [], _acc => ""
  | c :: rest, acc =>
    if c = '/' then ""
    else if c = '.' then ⟨'.' :: acc⟩
    else extGo rest (c :: acc)

/-- Go `filepath.Ext`. -/
def filepathExt (s : String) : String := extGo s.data.reverse []

def msgFixDirListing : String :=
  "Disable directory listings (autoindex) for this location and restrict access."
def msgFixSecret : String :=
  "Rotate and revoke exposed secrets immediately, remove them from public responses, and restrict access."
def msgFixGit : String :=
  "Block access to VCS directories (e.g. /.git) at the web server and remove any exposed repository data."
def msgFixEnv : String :=
  "Remove environment files from the web root and restrict access; rotate any exposed credentials."
def msgFixArchive : String :=
  "Remove backup/dump artifacts from public paths and restrict access to internal storage."
def msgFixPhpinfo : String :=
  "Remove phpinfo endpoints from production or restrict access to administrators only."
def msgFixActuator : String :=
  "Restrict Spring Boot actuator endpoints to authenticated/internal access and disable sensitive endpoints."
def msgFixSitemap : String :=
  "If this content should not be indexed, remove it from the sitemap and restrict access."
def msgFixRobots : String :=
  "Robots directives do not protect content; restrict access if sensitive and avoid listing sensitive paths in robots.txt."
def msgFixNoIndex : String :=
  "Noindex is present; also restrict access if this content is sensitive."
def msgFixSensitive : String :=
  "Restrict access to this path (authentication/IP allowlist) and remove any sensitive content from public responses."

/-- Models `recommendedFix` (remediate.go:8-48).  `source` is the Go
`DiscoverySource` string. -/
def recommendedFix (path : String) (source : String) (a : Analysis)
    (flags : AnalysisFlags) (isSensitive : Bool) : String :=
  let lp := lowerStr path
  let ext := lowerStr (filepathExt lp)
  if flags.directoryListing then msgFixDirListing
  else if flags.confirmedSecret then msgFixSecret
  else if strHasPrefix lp "/.git" then msgFixGit
  else if strHasPrefix lp "/.env" then msgFixEnv
  else if decide (ext = ".zip" ∨ ext = ".tar" ∨ ext = ".gz" ∨ ext = ".sql") then
    msgFixArchive
  else if strContains lp "phpinfo" then msgFixPhpinfo
  else if strContains lp "actuator" then msgFixActuator
  else if decide (source = "sitemap") then msgFixSitemap
  else if decide (source = "robots") then msgFixRobots
  else if flags.noIndex && decide (a.severity ≠ Severity.high) then msgFixNoIndex
  else if isSensitive && decide (a.severity ≠ Severity.low) then msgFixSensitive
  else ""

/-- A first-match-wins cascade: return the message of the first rule whose
guard is true, or the empty string. -/
def applyFixRules : List (Bool × String) → String
  | [] => ""
  | (c, m) :: rest => if c then m else applyFixRules rest

/-- The remediation rules of remediate.go as an explicit ordered cascade. -/
def fixRules (path : String) (source : String) (a : Analysis)
    (flags : AnalysisFlags) (isSensitive : Bool) : List (Bool × String) :=
  let lp := lowerStr path
  let ext := lowerStr (filepathExt lp)
  [ (flags.directoryListing, msgFixDirListing),
    (flags.confirmedSecret, msgFixSecret),
    (strHasPrefix lp "/.git", msgFixGit),
    (strHasPrefix lp "/.env", msgFixEnv),
    (decide (ext = ".zip" ∨ ext = ".tar" ∨ ext = ".gz" ∨ ext = ".sql"), msgFixArchive),
    (strContains lp "phpinfo", msgFixPhpinfo),
    (strContains lp "actuator", msgFixActuator),
    (decide (source = "sitemap"), msgFixSitemap),
    (decide (source = "robots"), msgFixRobots),
    (flags.noIndex && decide (a.severity ≠ Severity.high), msgFixNoIndex),
    (isSensitive && decide (a.severity ≠ Severity.low), msgFixSensitive) ]

/-! ## Path normalizer (normalize.go)

`normalizePath` (normalize.go:9-29): trim, reject empty, force a leading
slash, map backslashes to slashes, collapse repeated slashes, `path.Clean`,
map "." to "/" and force a leading slash again.  The argument reaching
`path.Clean` always starts with `/` and contains no `//`, and `cleanRooted`
below implements Go `path.Clean` for exactly such rooted inputs by the
documented segment rules (drop empty and `.` segments, let `..` pop the
previous segment or vanish at the root). -/

/-- Helper for `collapseSlashes`: `prevSlash` records whether the previously
emitted character was a slash; a slash following a slash is dropped. -/
def collapseAux : Bool → List Char → List Char
  | _, [] => []
  | prevSlash, c :: rest =>
    if c = '/' then
      if prevSlash then collapseAux true rest else '/' :: collapseAux true rest
    else c :: collapseAux false rest

/-- Collapse every run of consecutive slashes to a single slash: the fixpoint
of the Go loop `for strings.Contains(p, "//") { p = ReplaceAll(p, "//", "/") }`
(normalize.go:18-20). -/
def collapseSlashes (l : List Char) : List Char := collapseAux false l

/-- Split a character list on slashes (so `splitSlash "a/b".data = [a, b]`,
and an empty input yields one empty segment). -/
def splitSlash : List Char → List (List Char)
  | [] => [[]]
  | '/' :: rest => [] :: splitSlash rest
  | c :: rest =>
    match splitSlash rest with
    | s :: ss => (c :: s) :: ss
    | [] => [[c]]

/-- Join segments with single slashes (inverse of `splitSlash` on slash-free
segments). -/
def joinSlash : List (List Char) → List Char
  | [] => []
  | [s] => s
  | s :: rest => s ++ '/' :: joinSlash rest

/-- One step of the `path.Clean` segment machine on a rooted path: skip empty
and `.` segments, pop on `..`, push anything else.  The stack is kept in
reverse order (most recent segment first). -/
def cleanStep (st : List (List Char)) (s : List Char) : List (List Char) :=
  if s = [] ∨ s = ['.'] then st
  else if s = ['.', '.'] then st.drop 1
  else s :: st

/-- Run the segment machine over all segments. -/
def cleanStack (segs : List (List Char)) : List (List Char) :=
  segs.foldl cleanStep []

/-- Go `path.Clean` on a rooted path (one that starts with `/`): resolve
`.`/`..` segments and duplicate or trailing slashes. -/
def cleanRooted (l : List Char) : List Char :=
  '/' :: joinSlash (cleanStack (splitSlash (l.drop 1))).reverse

/-- The cleanup pipeline of `normalizePath` on a non-empty trimmed input:
trim, force a leading slash, unify backslashes, collapse repeated slashes,
resolve dot segments (normalize.go:10-21). -/
def canonPipeline (p : String) : List Char :=
  let t := trimChars p.data
  let t1 := if t.head? = some '/' then t else '/' :: t
  let t2 := t1.map fun c => if c = Char.ofNat 92 then '/' else c
  cleanRooted (collapseSlashes t2)

/-- Models `normalizePath` (normalize.go:9-29); `none` stands for the Go
`("", false)` return.  The final two steps reproduce normalize.go:22-27
(`cp == "."` fixup and the second leading-slash check), which are no-ops on
the rooted output of `cleanRooted`. -/
def normalizePath (p : String) : Option String :=
  if trimChars p.data = [] then none
  else
    let cp := canonPipeline p
    let cp1 := if cp = ['.'] then ['/'] else cp
    some ⟨if cp1.head? = some '/' then cp1 else '/' :: cp1⟩

/-! ## Path plan builder (scanner.go:190-290) -/

structure PathPlan where
  path : String
  isSensitive : Bool
  critical : Bool
  source : String
deriving DecidableEq, Repr

/-- Models `mergeSource` (scanner.go:274). -/
def mergeSource (prev next : String) : String :=
  if prev = "" then next
  else if prev = "dictionary" ∧ next ≠ "" ∧ next ≠ "dictionary" then next
  else prev

/-- Models `mergePlan` (scanner.go:284). -/
def mergePlan (prev next : PathPlan) : PathPlan :=
  { prev with
    isSensitive := prev.isSensitive || next.isSensitive
    critical := prev.critical || next.critical
    source := mergeSource prev.source next.source }

/-- One candidate handed to `buildPathPlan`'s local `add` closure
(scanner.go:200): a raw path together with the discovery source and the
sensitivity flags of the contributing rule. -/
structure AddEntry where
  rawPath : String
  source : String
  isSensitive : Bool
  critical : Bool
deriving DecidableEq, Repr

/-- The key under which `add` stores a candidate: its normalized path,
unless normalization fails or the normalized path exceeds 2048 bytes
(scanner.go:201-207). -/
def normKey (p : String) : Option String :=
  match normalizePath p with
  | none => none
  | some n => if n.utf8ByteSize > 2048 then none else some n

/-- Map lookup on the association list standing for the Go `seen` map. -/
def lookupPlan (n : String) : List (String × PathPlan) → Option PathPlan
  | [] => none
  | (k, v) :: t => if k = n then some v else lookupPlan n t

/-- Replace the value stored under `k` in an association list. -/
def assocReplace (k : String) (v : PathPlan) :
    List (String × PathPlan) → List (String × PathPlan)
  | [] => []
  | (k0, v0) :: rest =>
    if k0 = k then (k0, v) :: rest else (k0, v0) :: assocReplace k v rest

/-- Models one call of the `add` closure (scanner.go:200-213) on the `seen`
map, embedded as an association list. -/
def addPlan (seen : List (String × PathPlan)) (e : AddEntry) :
    List (String × PathPlan) :=
  match normKey e.rawPath with
  | none => seen
  | some n =>
    match lookupPlan n seen with
    | some prev =>
      assocReplace n
        (mergePlan prev
          ⟨n, prev.isSensitive || e.isSensitive, prev.critical || e.critical,
            mergeSource prev.source e.source⟩) seen
    | none => (n, ⟨n, e.isSensitive, e.critical, e.source⟩) :: seen

/-- The `seen` map after `buildPathPlan` has fed a list of candidates to
`add`, in order (dictionary rules first, then the enabled discovery
sources, scanner.go:215-257). -/
def buildSeen (es : List AddEntry) : List (String × PathPlan) :=
  es.foldl addPlan []

/-- The entries of a candidate list that contribute to normalized path `n`. -/
def contrib (es : List AddEntry) (n : String) : List AddEntry :=
  es.filter fun e => normKey e.rawPath = some n

/-- One merge step on the plan stored under key `n`, exactly as `add` updates
the map (scanner.go:208-212): first insertion stores the entry's fields, a
later entry is merged through `mergePlan`/`mergeSource`. -/
def planStep (n : String) (acc : Option PathPlan) (e : AddEntry) : Option PathPlan :=
  match acc with
  | none => some ⟨n, e.isSensitive, e.critical, e.source⟩
  | some pp =>
    some (mergePlan pp
      ⟨n, pp.isSensitive || e.isSensitive, pp.critical || e.critical,
        mergeSource pp.source e.source⟩)

/-- The plan the merge rules produce for key `n` from its contributing
entries, folded in order exactly as `add` does. -/
def planOf (n : String) (cs : List AddEntry) : Option PathPlan :=
  cs.foldl (planStep n) none

/-- Source-resolution fold across contributing sources: the first source,
merged with each later one in order. -/
def srcFold (ss : List String) : String :=
  match ss with
  | [] => ""
  | s :: t => t.foldl mergeSource s

/-- The four discovery source strings (scanner.go:47-52). -/
def validSources : List String := ["dictionary", "robots", "sitemap", "crawler"]

/-! ## HTTP access layer (http.go) -/

/-- The observable outcome of one `do` call (http.go:115): status, headers,
snippet and error.  A transport-level failure is `err = some msg` with zero
status, nil headers and empty snippet, exactly as `do` returns them.
For a HEAD request `do` always returns an empty snippet. -/
structure HTTPAttempt where
  status : Int
  headers : List (String × List String)
  snippet : String
  err : Option String
deriving Repr

/-- The tuple returned by `doRequest` (http.go:97). -/
structure DoResult where
  status : Int
  headers : List (String × List String)
  snippet : String
  method : String
  err : Option String
deriving Repr

/-- Models `doRequest` (http.go:97-113).  The network is abstracted by the
outcomes of the (at most two) attempts: `headRes` is what `do` would return
for the initial HEAD, `getRes` what it would return for a GET of the same
URL.  The HEAD attempt is consulted first, exactly as the code issues it
first. -/
def doRequest (headRes getRes : HTTPAttempt) : DoResult :=
  if headRes.err = none ∧ headRes.status ≠ 405 ∧ headRes.status ≠ 501 then
    if headRes.status = 200 then
      ⟨getRes.status, getRes.headers, getRes.snippet, "GET", getRes.err⟩
    else
      ⟨headRes.status, headRes.headers, "", "HEAD", none⟩
  else
    ⟨getRes.status, getRes.headers, getRes.snippet, "GET", getRes.err⟩

/-! ## Scan orchestrator output ordering (scanner.go:68-188)

`ScanTargets` pre-sorts the target infos by raw target string (scanner.go:87)
and sorts every per-target result list by path, breaking ties by URL
(scanner.go:179-184), in both cases with Go `sort.Slice`.  `sort.Slice` is an
unstable comparison sort; every comparison sort produces the same output when
the comparator admits no ties between distinct elements, which is the regime
of the claims below (distinct paths; duplicated raw targets produce equal
records).  It is embedded as an insertion sort with the same comparators. -/

structure RequestResult where
  url : String
  method : String
  path : String
  statusCode : Int
  headers : List (String × List String)
  snippet : String
  error : String
  durationMs : Int
  indexedExposed : Bool
  discoverySource : String
  recommendedFix : String
  analysis : Analysis
deriving DecidableEq, Repr

/-- The comparator of scanner.go:179-184: by path, ties broken by URL. -/
def resLess (a b : RequestResult) : Bool :=
  if a.path = b.path then decide (a.url < b.url) else decide (a.path < b.path)

/-- Insert into a list sorted by `resLess`. -/
def insertRes (x : RequestResult) : List RequestResult → List RequestResult
  | [] => [x]
  | y :: t => if resLess x y then x :: y :: t else y :: insertRes x t

/-- The final per-target sort of `ScanTargets` (scanner.go:179-184). -/
def sortResults : List RequestResult → List RequestResult
  | [] => []
  | x :: t => insertRes x (sortResults t)

/-- Insert into a list of raw target strings sorted ascending. -/
def insertTarget (x : String) : List String → List String
  | [] => [x]
  | y :: t => if x < y then x :: y :: t else y :: insertTarget x t

/-- The target pre-sort of `ScanTargets` (scanner.go:87), projected to the raw
target strings: the output `TargetResult` list is built in exactly this
order (scanner.go:90-113). -/
def sortTargets : List String → List String
  | [] => []
  | x :: t => insertTarget x (sortTargets t)

/-! ## Same-origin crawler (robots.go:115-204)

The network and HTML scraping are abstracted by an oracle
`String → Option (List String)`: for a canonical page URL it returns `none`
when the GET fails, is non-200 or is not HTML, and `some links` with the
accepted same-origin canonicalized links (`extractLinks` composed with
`resolveSameOrigin` and `canonicalURL`) otherwise.  URLs are taken to be
already canonical strings.  The BFS loop itself — visited set, discovered
set, queue of (url, depth), page budget, depth guard — is embedded
faithfully. -/

/-- Add to a Go map used as a set (membership is the only observable). -/
def insertNew (x : String) (l : List String) : List String :=
  if x ∈ l then l else l ++ [x]

structure CrawlState where
  visited : List String
  discovered : List String
  queue : List (String × Int)
deriving DecidableEq, Repr

/-- The crawl BFS loop (robots.go:144-197), on the three components of the
state (visited set, discovered set, queue of url/depth pairs). -/
def crawlLoop (oracle : String → Option (List String)) (maxDepth : Int)
    (maxPages : Nat) :
    List String → List String → List (String × Int) → CrawlState
  | visited, discovered, [] => ⟨visited, discovered, []⟩
  | visited, discovered, (u, d) :: rest =>
    if visited.length < maxPages then
      if u ∈ visited then
        crawlLoop oracle maxDepth maxPages visited discovered rest
      else
        let disc := insertNew u discovered
        match oracle u with
        | none => crawlLoop oracle maxDepth maxPages (visited ++ [u]) disc rest
        | some links =>
          let disc2 := links.foldl (fun dd l => insertNew l dd) disc
          let newItems :=
            if d + 1 ≤ maxDepth then
              (links.filter fun l => l ∉ visited ++ [u]).map fun l => (l, d + 1)
            else []
          crawlLoop oracle maxDepth maxPages (visited ++ [u]) disc2
            (rest ++ newItems)
    else ⟨visited, discovered, (u, d) :: rest⟩
termination_by visited _ queue => (maxPages - visited.length, queue.length)
decreasing_by
  all_goals simp_wf
  all_goals first
    | (apply Prod.Lex.right; omega)
    | (apply Prod.Lex.left; omega)

/-- The depth clamp of robots.go:116-121: non-positive defaults to 2, larger
than 2 is clamped to 2. -/
def clampDepth (d : Int) : Int :=
  if d ≤ 0 then 2 else if d > 2 then 2 else d

/-- Models `CrawlSameOrigin` (robots.go:115-204), returning the whole final
state; the Go function returns its `discovered` component.  `visited` is
exactly the set of URLs the crawler attempted to fetch. -/
def crawlSameOrigin (oracle : String → Option (List String)) (maxDepth : Int)
    (maxPages : Int) (start : String) : CrawlState :=
  crawlLoop oracle (clampDepth maxDepth)
    (if maxPages ≤ 0 then (20 : Int) else maxPages).toNat
    [] [] [(start, 0)]

/-! ## Sitemap fetcher (sitemap.go:13-116)

The network and XML parsing are abstracted by an oracle
`String → Option (String × List String)`: `none` when the fetch fails or is
non-200, otherwise the XML root element name and the `<loc>` text values
(already trimmed by `parseSitemapXML`... the code trims again, which is kept).
`acceptLoc` models the `url.Parse` success plus same-host check of
sitemap.go:76-82/97-103, and `canonLoc` the fragment/query strip plus
re-serialization of sitemap.go:104-106. -/

structure SitemapState where
  seenSitemap : List String
  queue : List String
  found : List String
  seenURL : List String
  fetched : Nat
deriving DecidableEq, Repr

/-- One loc of a sitemap-index document (sitemap.go:71-88): trim, skip empty
or foreign-origin locs, dedupe by exact URL against the seen-sitemap set, and
enqueue.  The accumulator is (seen-sitemap set, queue). -/
def indexLocStep (acceptLoc : String → Bool)
    (acc : List String × List String) (loc : String) :
    List String × List String :=
  let l := goTrimSpace loc
  if l = "" then acc
  else if ¬ acceptLoc l then acc
  else if l ∈ acc.1 then acc
  else (acc.1 ++ [l], acc.2 ++ [l])

/-- Processing of one dequeued sitemap document whose root is a sitemap
index (sitemap.go:70-90): same-origin locs are enqueued as further sitemap
sources, deduplicated by exact URL; nothing is collected. -/
def indexStep (acceptLoc : String → Bool) (locs : List String)
    (seenSitemap queue : List String) : List String × List String :=
  locs.foldl (indexLocStep acceptLoc) (seenSitemap, queue)

/-- One loc of a non-index sitemap document (sitemap.go:92-112): trim, skip
empty or foreign-origin locs, canonicalize, dedupe against the seen-URL set,
and collect.  The accumulator is (seen-URL set, collected list). -/
def collectLocStep (acceptLoc : String → Bool) (canonLoc : String → String)
    (acc : List String × List String) (loc : String) :
    List String × List String :=
  let l := goTrimSpace loc
  if l = "" then acc
  else if ¬ acceptLoc l then acc
  else
    let c := canonLoc l
    if c ∈ acc.1 then acc else (acc.1 ++ [c], acc.2 ++ [c])

/-- Processing of one dequeued non-index sitemap document
(sitemap.go:92-112): same-origin locs, canonicalized, are collected into the
result set, deduplicated. -/
def collectStep (acceptLoc : String → Bool) (canonLoc : String → String)
    (locs : List String) (seenURL found : List String) :
    List String × List String :=
  locs.foldl (collectLocStep acceptLoc canonLoc) (seenURL, found)

/-- The sitemap BFS loop (sitemap.go:39-113), on the components of the state:
seen sitemap URLs, queue, collected result list, seen result URLs, fetch
count. -/
def sitemapLoop (oracle : String → Option (String × List String))
    (acceptLoc : String → Bool) (canonLoc : String → String) (maxFetch : Nat) :
    List String → List String → List String → List String → Nat → SitemapState
  | seenSitemap, [], found, seenURL, fetched =>
    ⟨seenSitemap, [], found, seenURL, fetched⟩
  | seenSitemap, su :: rest, found, seenURL, fetched =>
    if fetched < maxFetch then
      match oracle su with
      | none =>
        sitemapLoop oracle acceptLoc canonLoc maxFetch seenSitemap rest found
          seenURL (fetched + 1)
      | some (root, locs) =>
        if eqFold root "sitemapindex" then
          let p := indexStep acceptLoc locs seenSitemap rest
          sitemapLoop oracle acceptLoc canonLoc maxFetch p.1 p.2 found seenURL
            (fetched + 1)
        else
          let p := collectStep acceptLoc canonLoc locs seenURL found
          sitemapLoop oracle acceptLoc canonLoc maxFetch seenSitemap rest p.2
            p.1 (fetched + 1)
    else ⟨seenSitemap, su :: rest, found, seenURL, fetched⟩
termination_by _ _ _ _ fetched => maxFetch - fetched
decreasing_by
  all_goals simp_wf
  all_goals omega

/-- Seed deduplication of `FetchSitemaps` (sitemap.go:21-33). -/
def seedSitemaps (seeds : List String) : List String :=
  seeds.foldl
    (fun acc sd =>
      let t := goTrimSpace sd
      if t = "" then acc else if t ∈ acc then acc else acc ++ [t])
    []

/-- Models `FetchSitemaps` (sitemap.go:13-116), returning the whole final
state; the Go function returns its `found` component. -/
def fetchSitemaps (oracle : String → Option (String × List String))
    (acceptLoc : String → Bool) (canonLoc : String → String) (maxFetch : Int)
    (seeds : List String) : SitemapState :=
  let q := seedSitemaps seeds
  sitemapLoop oracle acceptLoc canonLoc
    (if maxFetch ≤ 0 then (50 : Int) else maxFetch).toNat
    q q [] [] 0

/-! ## Concrete rule sets used by the claim instances -/

/-- A concrete matcher realizing the default "Directory listing" pattern
(`(?i)\bIndex of /`) on the snippets used below. -/
def dlPattern : Pattern :=
  ⟨"Directory listing", Severity.high, some fun s => strContains (lowerStr s) "index of /"⟩

/-- A concrete matcher realizing the default Medium-severity
"Password keyword" pattern (`(?i)\bpass(word|wd)?\b`) on the snippets used
below. -/
def pwPattern : Pattern :=
  ⟨"Password keyword", Severity.medium, some fun s => strContains (lowerStr s) "password"⟩

def rsC2 : RuleSet := ⟨[], [dlPattern, pwPattern]⟩

/-! ## Claim C2: noindex downgrade in the analysis engine -/

/-- Severity effect of the final downgrade pass, by case analysis. -/
lemma applyNoIndexDowngrade_severity (st : AnalyzeState) :
    (applyNoIndexDowngrade st).severity =
      (if st.flags.noIndex ∧ ¬st.flags.confirmedSecret ∧ ¬st.flags.directoryListing then
        match st.severity with
        | .high => Severity.medium
        | .medium => Severity.low
        | .low => Severity.low
      else st.severity) := by
  unfold applyNoIndexDowngrade
  split
  · cases hsev : st.severity <;> simp [hsev]
  · rfl

/-- C2: for every input, when the NoIndex flag is set and neither
ConfirmedSecret nor DirectoryListing is set, the final severity of `analyze`
is exactly one ordinal step below what the earlier rules (`analyzePre`)
produced — High becomes Medium, Medium becomes Low, Low is unchanged — and
otherwise (in particular whenever DirectoryListing or ConfirmedSecret is set)
the severity is not downgraded.  Concretely, a "Directory listing" pattern
match plus an X-Robots-Tag noindex header yields severity High, while a
single Medium-severity pattern match plus noindex yields severity Low. -/
theorem analyze_noindex_downgrade :
    (∀ status headers snippet rs isSensitive critical,
      (analyze status headers snippet rs isSensitive critical).1.severity =
        (if (analyzePre status headers snippet rs isSensitive critical).flags.noIndex ∧
            ¬(analyzePre status headers snippet rs isSensitive critical).flags.confirmedSecret ∧
            ¬(analyzePre status headers snippet rs isSensitive critical).flags.directoryListing then
          match (analyzePre status headers snippet rs isSensitive critical).severity with
          | .high => Severity.medium
          | .medium => Severity.low
          | .low => Severity.low
        else (analyzePre status headers snippet rs isSensitive critical).severity))
    ∧ (analyze 200 [("X-Robots-Tag", ["noindex"])] "Index of /files" rsC2 false false).1.severity
        = Severity.high
    ∧ (analyze 200 [("X-Robots-Tag", ["noindex"])] "password: hunter2" rsC2 false false).1.severity
        = Severity.low := by
  refine ⟨fun status headers snippet rs isSensitive critical => ?_, by decide, by decide⟩
  simp only [analyze]
  exact applyNoIndexDowngrade_severity _

/-! ## Claim C7: HEAD-first probing strategy -/

/-- C7: for every probed URL (with the two possible attempt outcomes given),
`doRequest` consults the HEAD outcome first; a transport-level HEAD failure
or a 405/501 status falls back to GET unconditionally; a HEAD success with
status 200 is followed up by a GET, whose outcome is recorded with method
GET; any other successful HEAD status is kept as-is, with no body and
recorded method HEAD. -/
theorem doRequest_head_get_strategy :
    ∀ headRes getRes : HTTPAttempt,
      ((headRes.err ≠ none ∨ headRes.status = 405 ∨ headRes.status = 501) →
        doRequest headRes getRes =
          ⟨getRes.status, getRes.headers, getRes.snippet, "GET", getRes.err⟩) ∧
      (headRes.err = none → headRes.status = 200 →
        doRequest headRes getRes =
          ⟨getRes.status, getRes.headers, getRes.snippet, "GET", getRes.err⟩) ∧
      (headRes.err = none → headRes.status ≠ 200 → headRes.status ≠ 405 →
        headRes.status ≠ 501 →
        doRequest headRes getRes =
          ⟨headRes.status, headRes.headers, "", "HEAD", none⟩) := by
  intro headRes getRes
  refine ⟨fun h => ?_, fun h1 h2 => ?_, fun h1 h2 h3 h4 => ?_⟩
  · rcases h with h | h | h <;> simp [doRequest, h]
  · simp [doRequest, h1, h2]
  · simp [doRequest, h1, h2, h3, h4]

/-- Witness for C7: each of the three branches exercised on concrete attempt
outcomes. -/
theorem doRequest_head_get_strategy_witness :
    doRequest ⟨405, [], "", none⟩ ⟨200, [], "b", none⟩ =
      ⟨200, [], "b", "GET", none⟩ ∧
    doRequest ⟨200, [], "", none⟩ ⟨200, [], "b", none⟩ =
      ⟨200, [], "b", "GET", none⟩ ∧
    doRequest ⟨404, [("Server", ["x"])], "", none⟩ ⟨200, [], "b", none⟩ =
      ⟨404, [("Server", ["x"])], "", "HEAD", none⟩ :=
  ⟨(doRequest_head_get_strategy ⟨405, [], "", none⟩ ⟨200, [], "b", none⟩).1
      (Or.inr (Or.inl rfl)),
   (doRequest_head_get_strategy ⟨200, [], "", none⟩ ⟨200, [], "b", none⟩).2.1
      rfl rfl,
   (doRequest_head_get_strategy ⟨404, [("Server", ["x"])], "", none⟩
      ⟨200, [], "b", none⟩).2.2 rfl (by decide) (by decide) (by decide)⟩

/-! ## Claim C9: remediation cascade

The claim lists the checks by their triggering signal only.  The code guards
the noindex hint additionally with severity not High (remediate.go:41) and
the generic sensitive-path hint with severity not Low (remediate.go:44), so
the claim as stated fails; the cascade order itself is as claimed once those
two guards are added. -/

/-- Counterexample to C9 as stated: with the noindex flag set (and no
earlier category matching), first-match-wins would select the noindex hint,
but the code returns the empty string when severity is High; likewise a
sensitive path with severity Low gets the empty string instead of the
generic sensitive-path hint. -/
theorem recommendedFix_guards_cex :
    ((⟨true, false, false⟩ : AnalysisFlags).noIndex = true ∧
      recommendedFix "/x" "dictionary" ⟨Severity.high, [], [], true⟩
        ⟨true, false, false⟩ false = "" ∧
      "" ≠ msgFixNoIndex) ∧
    (recommendedFix "/x" "dictionary" ⟨Severity.low, [], [], false⟩
        ⟨false, false, false⟩ true = "" ∧
      "" ≠ msgFixSensitive) := by
  refine ⟨⟨rfl, by decide, by decide⟩, by decide, by decide⟩

/-- C9 (amended): `recommendedFix` is the first-match-wins cascade over the
claimed priority order — directory listing, confirmed secret, /.git prefix,
/.env prefix, archive extension, phpinfo keyword, actuator keyword, sitemap
source, robots source, noindex hint (only when severity is not High),
sensitive-path hint (only when severity is not Low), else the empty
string. -/
theorem recommendedFix_cascade :
    ∀ path source a flags isSensitive,
      recommendedFix path source a flags isSensitive =
        applyFixRules (fixRules path source a flags isSensitive) :=
  fun _ _ _ _ _ => rfl

/-! ## Claim C8: determinism of the analysis engine

`analyze` reads the header map only through `firstHeader`, which scans the
map in Go map iteration order — an order that is deliberately randomized
between runs.  With two distinct keys that are case-insensitively equal to
the same queried header name, different iteration orders give different
results, so the claim as stated fails.  It holds whenever no two distinct
keys of the map are case-insensitively equal — which is guaranteed for
header maps produced by net/http, whose keys are canonicalized. -/

lemma eqFold_key_trans {a b k : String} (ha : eqFold a k = true)
    (hb : eqFold b k = true) : eqFold a b = true := by
  simp only [eqFold, decide_eq_true_eq] at *
  rw [ha, hb]

lemma eqFold_symm_not {a b : String} (h : ¬ eqFold a b = true) :
    ¬ eqFold b a = true := by
  simp only [eqFold, decide_eq_true_eq] at *
  exact fun hh => h hh.symm

/-- When no two keys of the header map are case-insensitively equal,
`firstHeader` does not depend on the iteration order. -/
lemma firstHeader_perm (key : String) :
    ∀ {H1 H2 : List (String × List String)}, H1.Perm H2 →
      ((H1.map Prod.fst).Pairwise fun a b => ¬ eqFold a b = true) →
      firstHeader H1 key = firstHeader H2 key := by
  intro H1 H2 hp
  induction hp with
  | nil => intro _; rfl
  | cons x _ ih =>
    intro hw
    rw [List.map_cons, List.pairwise_cons] at hw
    unfold firstHeader
    split
    · rfl
    · exact ih hw.2
  | swap x y l =>
    intro hw
    rw [List.map_cons, List.map_cons, List.pairwise_cons, List.pairwise_cons] at hw
    have hyx : ¬ eqFold y.1 x.1 = true := hw.1 x.1 (by simp)
    by_cases hx : eqFold x.1 key ∧ x.2 ≠ [] <;>
      by_cases hy : eqFold y.1 key ∧ y.2 ≠ []
    · exact absurd (eqFold_key_trans hy.1 hx.1) hyx
    all_goals simp [firstHeader, hx, hy]
  | trans h1 _ ih1 ih2 =>
    intro hw
    have hw2 := (List.Perm.pairwise_iff
      (fun {_ _} h => eqFold_symm_not h) (h1.map Prod.fst)).mp hw
    exact (ih1 hw).trans (ih2 hw2)

/-- Two presentations of the same header map — the same key/value pairs in
the two iteration orders a Go map may produce — with two distinct keys that
are case-insensitively equal. -/
def hC8a : List (String × List String) :=
  [("X-Robots-Tag", ["noindex"]), ("x-robots-tag", ["x"])]

def hC8b : List (String × List String) :=
  [("x-robots-tag", ["x"]), ("X-Robots-Tag", ["noindex"])]

/-- Counterexample to C8 as stated: on the same header map containing the
two case-insensitively equal keys `X-Robots-Tag` and `x-robots-tag`, the two
iteration orders make `analyze` return different severities (Low after a
noindex downgrade in one order, Medium in the other), so `analyze` is not a
function of the map alone. -/
theorem analyze_header_map_order_cex :
    hC8a.Perm hC8b ∧
    (analyze 200 hC8a "password" rsC2 true false).1.severity = Severity.low ∧
    (analyze 200 hC8b "password" rsC2 true false).1.severity = Severity.medium ∧
    analyze 200 hC8a "password" rsC2 true false ≠
      analyze 200 hC8b "password" rsC2 true false := by
  refine ⟨List.Perm.swap _ _ _, by decide, by decide, by decide⟩

/-- C8 (amended): `analyze` is a deterministic function of
(status, header map, snippet, ruleset, isSensitive, critical) — independent
of the map iteration order — provided no two distinct keys of the header map
are case-insensitively equal (as is guaranteed for net/http-canonicalized
header maps). -/
theorem analyze_deterministic :
    ∀ status H1 H2 snippet rs isSensitive critical,
      H1.Perm H2 →
      ((H1.map Prod.fst).Pairwise fun a b => ¬ eqFold a b = true) →
      analyze status H1 snippet rs isSensitive critical =
        analyze status H2 snippet rs isSensitive critical := by
  intro status H1 H2 snippet rs s c hp hw
  have h1 := firstHeader_perm "Content-Disposition" hp hw
  have h2 := firstHeader_perm "X-Robots-Tag" hp hw
  simp only [analyze, analyzePre, h1, h2]

/-- Witness for C8 (amended) at a concrete header map with distinct
case-insensitively distinct keys, in two iteration orders. -/
theorem analyze_deterministic_witness :
    analyze 200 [("Content-Type", ["text/html"]), ("X-Robots-Tag", ["noindex"])]
        "x" rsC2 true false =
      analyze 200 [("X-Robots-Tag", ["noindex"]), ("Content-Type", ["text/html"])]
        "x" rsC2 true false :=
  analyze_deterministic 200 _ _ "x" rsC2 true false (List.Perm.swap _ _ _)
    (by decide)

/-! ## Claim C1: path-plan merge rules -/

lemma lookupPlan_assocReplace_self {l : List (String × PathPlan)} {k : String}
    {w : PathPlan} (h : lookupPlan k l = some w) (v : PathPlan) :
    lookupPlan k (assocReplace k v l) = some v := by
  induction l with
  | nil => simp [lookupPlan] at h
  | cons kv rest ih =>
    obtain ⟨k0, v0⟩ := kv
    by_cases hk : k0 = k
    · subst hk
      simp [assocReplace, lookupPlan]
    · simp only [assocReplace, lookupPlan, if_neg hk] at h ⊢
      exact ih h

lemma lookupPlan_assocReplace_other {l : List (String × PathPlan)} {k n : String}
    (hne : k ≠ n) (v : PathPlan) :
    lookupPlan n (assocReplace k v l) = lookupPlan n l := by
  induction l with
  | nil => simp [assocReplace, lookupPlan]
  | cons kv rest ih =>
    obtain ⟨k0, v0⟩ := kv
    by_cases hk : k0 = k
    · subst hk
      simp [assocReplace, lookupPlan, if_neg hne]
    · simp only [assocReplace, lookupPlan, if_neg hk]
      split
      · rfl
      · exact ih

lemma planOf_append_singleton (n : String) (cs : List AddEntry) (e : AddEntry) :
    planOf n (cs ++ [e]) = planStep n (planOf n cs) e := by
  unfold planOf
  rw [List.foldl_append]
  rfl

lemma contrib_append (pre es : List AddEntry) (n : String) :
    contrib (pre ++ es) n = contrib pre n ++ contrib es n :=
  List.filter_append ..

lemma contrib_single_hit {e : AddEntry} {n : String}
    (h : normKey e.rawPath = some n) : contrib [e] n = [e] := by
  simp [contrib, List.filter, h]

lemma contrib_single_miss {e : AddEntry} {n : String}
    (h : ¬ normKey e.rawPath = some n) : contrib [e] n = [] := by
  simp [contrib, List.filter, h]

/-- One `add` call updates the stored plan for each key exactly as one more
`planStep` on the key's contribution list. -/
lemma addPlan_lookup (seen : List (String × PathPlan)) (e : AddEntry)
    (pre : List AddEntry)
    (hinv : ∀ n, lookupPlan n seen = planOf n (contrib pre n)) :
    ∀ n, lookupPlan n (addPlan seen e) = planOf n (contrib (pre ++ [e]) n) := by
  intro n
  rw [contrib_append]
  unfold addPlan
  cases hk : normKey e.rawPath with
  | none =>
    rw [contrib_single_miss (by simp [hk]), List.append_nil]
    exact hinv n
  | some m =>
    by_cases hmn : m = n
    · subst hmn
      rw [contrib_single_hit hk, planOf_append_singleton, ← hinv m]
      cases hl : lookupPlan m seen with
      | none => simp [hl, lookupPlan, planStep]
      | some prev =>
        simp only [hl]
        exact lookupPlan_assocReplace_self hl _
    · rw [contrib_single_miss (by simp [hk, hmn]), List.append_nil, ← hinv n]
      cases hl : lookupPlan m seen with
      | none => simp [lookupPlan, hmn, hl]
      | some prev => simp [hl, lookupPlan_assocReplace_other hmn]

/-- The `seen` map built by `buildPathPlan` stores, under every key, exactly
the fold of the merge step over the key's contributing entries, in input
order. -/
lemma buildSeen_lookup (es : List AddEntry) :
    ∀ n, lookupPlan n (buildSeen es) = planOf n (contrib es n) := by
  suffices h : ∀ (es : List AddEntry) (seen : List (String × PathPlan))
      (pre : List AddEntry),
      (∀ n, lookupPlan n seen = planOf n (contrib pre n)) →
      ∀ n, lookupPlan n (es.foldl addPlan seen) = planOf n (contrib (pre ++ es) n) by
    intro n
    have := h es [] [] (fun n => rfl) n
    simpa using this
  intro es
  induction es with
  | nil =>
    intro seen pre hs n
    simpa using hs n
  | cons e rest ih =>
    intro seen pre hs n
    have hstep := addPlan_lookup seen e pre hs
    have := ih (addPlan seen e) (pre ++ [e]) hstep n
    simpa [List.append_assoc] using this

lemma planStep_ne_none (n : String) (acc : Option PathPlan) (e : AddEntry) :
    planStep n acc e ≠ none := by
  unfold planStep
  cases acc <;> simp

lemma foldl_planStep_some (n : String) :
    ∀ (cs : List AddEntry) (pp : PathPlan),
      cs.foldl (planStep n) (some pp) ≠ none := by
  intro cs
  induction cs with
  | nil => intro pp; simp
  | cons e rest ih =>
    intro pp
    rw [List.foldl_cons]
    cases h : planStep n (some pp) e with
    | none => exact absurd h (planStep_ne_none n (some pp) e)
    | some pp2 => exact ih pp2

lemma planOf_ne_none {n : String} {cs : List AddEntry} (h : cs ≠ []) :
    planOf n cs ≠ none := by
  cases cs with
  | nil => exact absurd rfl h
  | cons e rest =>
    unfold planOf
    rw [List.foldl_cons]
    cases hp : planStep n none e with
    | none => exact absurd hp (planStep_ne_none n none e)
    | some pp => exact foldl_planStep_some n rest pp

/-- Applying `mergeSource` twice with the same stored source, as
scanner.go:209 effectively does, is the same as applying it once. -/
lemma mergeSource_collapse (p s : String) :
    mergeSource p (mergeSource p s) = mergeSource p s := by
  unfold mergeSource
  split_ifs <;> simp_all

lemma srcFold_append_singleton {ss : List String} (h : ss ≠ []) (x : String) :
    srcFold (ss ++ [x]) = mergeSource (srcFold ss) x := by
  cases ss with
  | nil => exact absurd rfl h
  | cons s t =>
    show (t ++ [x]).foldl mergeSource s = mergeSource (t.foldl mergeSource s) x
    rw [List.foldl_append]
    rfl

/-- Field characterization of the merged plan: path is the key, the two
flags are logical ORs over the contributing entries, the source is the
`mergeSource` fold over the contributing sources. -/
lemma planOf_spec (n : String) :
    ∀ cs : List AddEntry, ∀ pp, planOf n cs = some pp →
      pp.path = n ∧ pp.isSensitive = cs.any (fun e => e.isSensitive) ∧
      pp.critical = cs.any (fun e => e.critical) ∧
      pp.source = srcFold (cs.map fun e => e.source) := by
  intro cs
  induction cs using List.reverseRecOn with
  | nil => intro pp h; simp [planOf] at h
  | append_singleton cs e ih =>
    intro pp h
    rw [planOf_append_singleton] at h
    cases hc : planOf n cs with
    | none =>
      have hcs : cs = [] := by
        by_contra hne
        exact planOf_ne_none hne hc
      subst hcs
      rw [hc] at h
      unfold planStep at h
      obtain rfl := Option.some.inj h
      simp [srcFold]
    | some pp0 =>
      rw [hc] at h
      obtain ⟨h1, h2, h3, h4⟩ := ih pp0 hc
      unfold planStep at h
      obtain rfl := Option.some.inj h
      have hcsne : cs ≠ [] := by
        intro h0
        rw [h0] at hc
        simp [planOf] at hc
      have hmapne : cs.map (fun e => e.source) ≠ [] := by
        simp [hcsne]
      refine ⟨h1, ?_, ?_, ?_⟩
      · simp only [mergePlan, h2, List.any_append, List.any_cons, List.any_nil]
        cases cs.any (fun e => e.isSensitive) <;> cases e.isSensitive <;> rfl
      · simp only [mergePlan, h3, List.any_append, List.any_cons, List.any_nil]
        cases cs.any (fun e => e.critical) <;> cases e.critical <;> rfl
      · simp only [mergePlan, h4, List.map_append, List.map_cons, List.map_nil]
        rw [srcFold_append_singleton hmapne, mergeSource_collapse]

lemma valid_ne_empty {s : String} (h : s ∈ validSources) : s ≠ "" := by
  fin_cases h <;> decide

lemma mergeSource_absorb {p : String} (hne : p ≠ "") (hd : p ≠ "dictionary")
    (x : String) : mergeSource p x = p := by
  unfold mergeSource
  rw [if_neg hne, if_neg (by simp [hd])]

/-- The source fold over valid sources is: the first non-dictionary source,
or `dictionary` when there is none — once a non-dictionary source is stored,
no later source ever replaces it, and it never reverts to dictionary. -/
lemma srcFold_char :
    ∀ (t : List String) (s : String), s ∈ validSources →
      (∀ x ∈ t, x ∈ validSources) →
      srcFold (s :: t) =
        (((s :: t).find? fun x => decide (x ≠ "dictionary")).getD "dictionary") := by
  intro t
  induction t with
  | nil =>
    intro s hs _
    by_cases hd : s = "dictionary"
    · subst hd; simp [srcFold, List.find?]
    · simp [srcFold, List.find?, hd]
  | cons x t2 ih =>
    intro s hs hx
    have hxv : x ∈ validSources := hx x (by simp)
    have hx2 : ∀ y ∈ t2, y ∈ validSources := fun y hy => hx y (by simp [hy])
    have hstep : srcFold (s :: x :: t2) = srcFold (mergeSource s x :: t2) := rfl
    by_cases hd : s = "dictionary"
    · subst hd
      by_cases hxd : x = "dictionary"
      · subst hxd
        have hm : mergeSource "dictionary" "dictionary" = "dictionary" := by decide
        rw [hstep, hm, ih "dictionary" hs hx2]
        simp [List.find?]
      · have hxe : x ≠ "" := valid_ne_empty hxv
        have hm : mergeSource "dictionary" x = x := by
          unfold mergeSource
          rw [if_neg (by decide), if_pos ⟨rfl, hxe, hxd⟩]
        rw [hstep, hm, ih x hxv hx2]
        simp [List.find?]
    · have hse : s ≠ "" := valid_ne_empty hs
      rw [hstep, mergeSource_absorb hse hd, ih s hs hx2]
      have hfs : (decide (s ≠ "dictionary")) = true := by simp [hd]
      simp [List.find?, hfs]

/-- C1: in the path plan builder, the candidate stored for a normalized path
exists exactly when some entry contributes to that path; its isSensitive and
critical flags are the logical OR of all contributing entries, and its
source is the first non-dictionary source that touched the path (or
dictionary when only dictionary entries touched it) — once replaced by a
non-dictionary source it is never replaced again and never reverts to
dictionary. -/
theorem buildPathPlan_merge (es : List AddEntry) (n : String)
    (hs : ∀ e ∈ es, e.source ∈ validSources) :
    (lookupPlan n (buildSeen es) = none ↔ contrib es n = []) ∧
    ∀ pp, lookupPlan n (buildSeen es) = some pp →
      pp.path = n ∧
      pp.isSensitive = (contrib es n).any (fun e => e.isSensitive) ∧
      pp.critical = (contrib es n).any (fun e => e.critical) ∧
      pp.source = (((contrib es n).map fun e => e.source).find?
        fun s => decide (s ≠ "dictionary")).getD "dictionary" := by
  have hmain := buildSeen_lookup es n
  constructor
  · rw [hmain]
    constructor
    · intro h
      by_contra hne
      exact planOf_ne_none hne h
    · intro h
      rw [h]
      rfl
  · intro pp hpp
    rw [hmain] at hpp
    obtain ⟨h1, h2, h3, h4⟩ := planOf_spec n (contrib es n) pp hpp
    refine ⟨h1, h2, h3, ?_⟩
    rw [h4]
    have hsub : ∀ s ∈ (contrib es n).map (fun e => e.source), s ∈ validSources := by
      intro s hsm
      obtain ⟨e, he, rfl⟩ := List.mem_map.mp hsm
      exact hs e (List.mem_of_mem_filter he)
    cases hcs : (contrib es n).map (fun e => e.source) with
    | nil =>
      rw [List.map_eq_nil_iff] at hcs
      rw [hcs] at hpp
      simp [planOf] at hpp
    | cons s t =>
      rw [hcs] at hsub
      exact srcFold_char t s (hsub s (by simp)) (fun y hy => hsub y (by simp [hy]))

/-- Dictionary, robots and sitemap entries whose raw paths all normalize to
`/.env`. -/
def esW : List AddEntry :=
  [⟨"/.env", "dictionary", true, true⟩, ⟨"//.env", "robots", false, false⟩,
   ⟨"/.env/", "sitemap", false, false⟩]

/-- Witness for C1: three entries merging under key `/.env`; the stored plan
ORs the flags and keeps `robots`, the first non-dictionary source. -/
theorem buildPathPlan_merge_witness :
    (∀ e ∈ esW, e.source ∈ validSources) ∧
    ((lookupPlan "/.env" (buildSeen esW) = none ↔ contrib esW "/.env" = []) ∧
      ∀ pp, lookupPlan "/.env" (buildSeen esW) = some pp →
        pp.path = "/.env" ∧
        pp.isSensitive = (contrib esW "/.env").any (fun e => e.isSensitive) ∧
        pp.critical = (contrib esW "/.env").any (fun e => e.critical) ∧
        pp.source = (((contrib esW "/.env").map fun e => e.source).find?
          fun s => decide (s ≠ "dictionary")).getD "dictionary") ∧
    lookupPlan "/.env" (buildSeen esW) = some ⟨"/.env", true, true, "robots"⟩ :=
  ⟨by decide, buildPathPlan_merge esW "/.env" (by decide), by decide⟩

/-! ## Claim C10: output order of targets -/

lemma insertTarget_perm (x : String) (l : List String) :
    (insertTarget x l).Perm (x :: l) := by
  induction l with
  | nil => simp [insertTarget]
  | cons y t ih =>
    unfold insertTarget
    split
    · exact List.Perm.refl _
    · exact (ih.cons y).trans (List.Perm.swap x y t)

lemma sortTargets_perm (l : List String) : (sortTargets l).Perm l := by
  induction l with
  | nil => simp [sortTargets]
  | cons x t ih =>
    unfold sortTargets
    exact (insertTarget_perm x (sortTargets t)).trans (ih.cons x)

lemma insertTarget_sorted (x : String) :
    ∀ {l : List String}, l.Pairwise (· ≤ ·) →
      (insertTarget x l).Pairwise (· ≤ ·) := by
  intro l
  induction l with
  | nil => intro _; simp [insertTarget]
  | cons y t ih =>
    intro hl
    rw [List.pairwise_cons] at hl
    unfold insertTarget
    split
    · rename_i hxy
      rw [List.pairwise_cons]
      refine ⟨?_, List.pairwise_cons.mpr hl⟩
      intro b hb
      rcases List.mem_cons.mp hb with rfl | hbt
      · exact le_of_lt hxy
      · exact le_trans (le_of_lt hxy) (hl.1 b hbt)
    · rename_i hxy
      rw [List.pairwise_cons]
      refine ⟨?_, ih hl.2⟩
      intro b hb
      rcases List.mem_cons.mp ((insertTarget_perm x t).mem_iff.mp hb) with rfl | hbt
      · exact le_of_not_lt hxy
      · exact hl.1 b hbt

lemma sortTargets_sorted (l : List String) :
    (sortTargets l).Pairwise (· ≤ ·) := by
  induction l with
  | nil => simp [sortTargets]
  | cons x t ih => exact insertTarget_sorted x ih

/-- C10: `ScanTargets` pre-sorts the target infos by raw target string
(scanner.go:87) and builds the output list in that order, so the output
`TargetResult` order is the ascending lexicographic order of the raw target
strings — a pure function of the multiset of targets, independent of the
caller-supplied order. -/
theorem scanTargets_output_order (ts ts2 : List String) (hperm : ts.Perm ts2) :
    (sortTargets ts).Perm ts ∧
    (sortTargets ts).Pairwise (· ≤ ·) ∧
    sortTargets ts = sortTargets ts2 := by
  have hp1 := sortTargets_perm ts
  have hp2 := sortTargets_perm ts2
  refine ⟨hp1, sortTargets_sorted ts, ?_⟩
  exact List.eq_of_perm_of_sorted (hp1.trans (hperm.trans hp2.symm))
    (sortTargets_sorted ts) (sortTargets_sorted ts2)

/-- Witness for C10 on a concrete pair of targets given in either order. -/
theorem scanTargets_output_order_witness :
    (["https://b.example", "https://a.example"] : List String).Perm
        ["https://a.example", "https://b.example"] ∧
    (sortTargets ["https://b.example", "https://a.example"]).Perm
        ["https://b.example", "https://a.example"] ∧
    (sortTargets ["https://b.example", "https://a.example"]).Pairwise (· ≤ ·) ∧
    sortTargets ["https://b.example", "https://a.example"] =
      sortTargets ["https://a.example", "https://b.example"] :=
  ⟨List.Perm.swap _ _ _,
    scanTargets_output_order _ _ (List.Perm.swap _ _ _)⟩

/-! ## Claim C3: deterministic per-target result ordering -/

lemma resLess_asymm {a b : RequestResult} (h : resLess a b = true) :
    resLess b a = false := by
  unfold resLess at *
  by_cases hp : a.path = b.path
  · rw [if_pos hp] at h
    rw [if_pos hp.symm]
    simp only [decide_eq_true_eq] at h
    simp [lt_asymm h]
  · rw [if_neg hp] at h
    rw [if_neg (fun hh => hp hh.symm)]
    simp only [decide_eq_true_eq] at h
    simp [lt_asymm h]

lemma resLess_trans {a b c : RequestResult} (h1 : resLess a b = true)
    (h2 : resLess b c = true) : resLess a c = true := by
  unfold resLess at *
  by_cases hab : a.path = b.path <;> by_cases hbc : b.path = c.path
  · rw [if_pos hab] at h1
    rw [if_pos hbc] at h2
    rw [if_pos (hab.trans hbc)]
    simp only [decide_eq_true_eq] at *
    exact lt_trans h1 h2
  · rw [if_pos hab] at h1
    rw [if_neg hbc] at h2
    rw [if_neg (hab ▸ hbc)]
    simp only [decide_eq_true_eq] at *
    exact hab ▸ h2
  · rw [if_neg hab] at h1
    rw [if_pos hbc] at h2
    rw [if_neg (fun hh => hab (hh.trans hbc.symm))]
    simp only [decide_eq_true_eq] at *
    exact hbc ▸ h1
  · rw [if_neg hab] at h1
    rw [if_neg hbc] at h2
    simp only [decide_eq_true_eq] at h1 h2
    have hac : a.path < c.path := lt_trans h1 h2
    rw [if_neg (fun hh => absurd (hh ▸ hac) (lt_irrefl _))]
    simp [hac]

lemma insertRes_perm (x : RequestResult) (l : List RequestResult) :
    (insertRes x l).Perm (x :: l) := by
  induction l with
  | nil => simp [insertRes]
  | cons y t ih =>
    unfold insertRes
    split
    · exact List.Perm.refl _
    · exact (ih.cons y).trans (List.Perm.swap x y t)

lemma sortResults_perm (l : List RequestResult) : (sortResults l).Perm l := by
  induction l with
  | nil => simp [sortResults]
  | cons x t ih =>
    unfold sortResults
    exact (insertRes_perm x (sortResults t)).trans (ih.cons x)

lemma insertRes_sorted (x : RequestResult) :
    ∀ {l : List RequestResult}, l.Pairwise (fun a b => resLess b a = false) →
      (insertRes x l).Pairwise (fun a b => resLess b a = false) := by
  intro l
  induction l with
  | nil => intro _; simp [insertRes]
  | cons y t ih =>
    intro hl
    rw [List.pairwise_cons] at hl
    unfold insertRes
    split
    · rename_i hxy
      rw [List.pairwise_cons]
      refine ⟨?_, List.pairwise_cons.mpr hl⟩
      intro b hb
      rcases List.mem_cons.mp hb with rfl | hbt
      · exact resLess_asymm hxy
      · by_contra hbx
        have hbxt : resLess b x = true := by
          cases hres : resLess b x
          · exact absurd hres hbx
          · rfl
        have := resLess_trans hbxt hxy
        rw [hl.1 b hbt] at this
        exact Bool.false_ne_true this
    · rename_i hxy
      rw [List.pairwise_cons]
      refine ⟨?_, ih hl.2⟩
      intro b hb
      rcases List.mem_cons.mp ((insertRes_perm x t).mem_iff.mp hb) with rfl | hbt
      · simpa using hxy
      · exact hl.1 b hbt

lemma sortResults_sorted (l : List RequestResult) :
    (sortResults l).Pairwise (fun a b => resLess b a = false) := by
  induction l with
  | nil => simp [sortResults]
  | cons x t ih => exact insertRes_sorted x ih

lemma perm_pairwise_path_lt_eq :
    ∀ {l1 l2 : List RequestResult}, l1.Perm l2 →
      l1.Pairwise (fun a b => a.path < b.path) →
      l2.Pairwise (fun a b => a.path < b.path) → l1 = l2 := by
  intro l1
  induction l1 with
  | nil =>
    intro l2 hp _ _
    cases l2 with
    | nil => rfl
    | cons b t2 => have := hp.length_eq; simp at this
  | cons a t1 ih =>
    intro l2 hp hs1 hs2
    cases l2 with
    | nil => have := hp.length_eq; simp at this
    | cons b t2 =>
      by_cases hab : a = b
      · subst hab
        rw [ih hp.cons_inv (List.pairwise_cons.mp hs1).2
          (List.pairwise_cons.mp hs2).2]
      · have ha : a ∈ t2 := by
          rcases List.mem_cons.mp (hp.mem_iff.mp (List.mem_cons_self a t1)) with h | h
          · exact absurd h hab
          · exact h
        have hb : b ∈ t1 := by
          rcases List.mem_cons.mp (hp.symm.mem_iff.mp (List.mem_cons_self b t2)) with h | h
          · exact absurd h.symm hab
          · exact h
        have h1 : a.path < b.path := (List.pairwise_cons.mp hs1).1 b hb
        have h2 : b.path < a.path := (List.pairwise_cons.mp hs2).1 a ha
        exact absurd h1 (lt_asymm h2)

lemma sorted_strict_of_nodup {l : List RequestResult}
    (hnd : l.Pairwise fun a b => a.path ≠ b.path) :
    (sortResults l).Pairwise (fun a b => a.path < b.path) := by
  have hnd2 : (sortResults l).Pairwise (fun a b => a.path ≠ b.path) :=
    ((sortResults_perm l).pairwise_iff (fun {_ _} h => fun hh => h hh.symm)).mpr hnd
  have hcomb := (sortResults_sorted l).and hnd2
  refine hcomb.imp ?_
  intro a b hab
  obtain ⟨hres, hne⟩ := hab
  unfold resLess at hres
  rw [if_neg (fun hh => hne hh.symm)] at hres
  simp only [decide_eq_false_iff_not, not_lt] at hres
  exact lt_of_le_of_ne hres hne

/-- C3: the per-target result list of `ScanTargets` (scanner.go:179-184) is
the sorted-by-(path, then URL) permutation of the aggregated results; with
distinct candidate paths (which the plan builder guarantees per target) the
output is the same for every aggregation (= worker completion) order, has
exactly as many entries as results, and is in strictly ascending
lexicographic path order. -/
theorem scanResults_order (l l2 : List RequestResult) (hperm : l.Perm l2)
    (hnd : l.Pairwise fun a b => a.path ≠ b.path) :
    (sortResults l).Perm l ∧
    (sortResults l).length = l.length ∧
    (sortResults l).Pairwise (fun a b => a.path < b.path) ∧
    sortResults l = sortResults l2 := by
  have hnd2 : l2.Pairwise (fun a b => a.path ≠ b.path) :=
    (hperm.pairwise_iff (fun {_ _} h => fun hh => h hh.symm)).mp hnd
  have hp1 := sortResults_perm l
  have hp2 := sortResults_perm l2
  refine ⟨hp1, hp1.length_eq, sorted_strict_of_nodup hnd, ?_⟩
  exact perm_pairwise_path_lt_eq (hp1.trans (hperm.trans hp2.symm))
    (sorted_strict_of_nodup hnd) (sorted_strict_of_nodup hnd2)

def rW1 : RequestResult :=
  ⟨"https://h/a", "GET", "/a", 200, [], "", "", 0, false, "dictionary", "",
    ⟨Severity.low, [], [], false⟩⟩

def rW2 : RequestResult :=
  ⟨"https://h/b", "HEAD", "/b", 404, [], "", "", 0, false, "robots", "",
    ⟨Severity.low, [], [], false⟩⟩

/-- Witness for C3 on two concrete results aggregated in either completion
order. -/
theorem scanResults_order_witness :
    ([rW2, rW1] : List RequestResult).Perm [rW1, rW2] ∧
    ([rW2, rW1] : List RequestResult).Pairwise (fun a b => a.path ≠ b.path) ∧
    (sortResults [rW2, rW1]).Perm [rW2, rW1] ∧
    (sortResults [rW2, rW1]).length = 2 ∧
    (sortResults [rW2, rW1]).Pairwise (fun a b => a.path < b.path) ∧
    sortResults [rW2, rW1] = sortResults [rW1, rW2] := by
  have h := scanResults_order [rW2, rW1] [rW1, rW2] (List.Perm.swap _ _ _)
    (by decide)
  exact ⟨List.Perm.swap _ _ _, by decide, h.1, h.2.1, h.2.2⟩

/-! ## Claim C5: crawl depth limit versus discovered set -/

lemma mem_insertNew_of_mem {x y : String} {l : List String} (h : x ∈ l) :
    x ∈ insertNew y l := by
  unfold insertNew
  split
  · exact h
  · exact List.mem_append_left _ h

lemma mem_insertNew_self (y : String) (l : List String) : y ∈ insertNew y l := by
  unfold insertNew
  split
  · assumption
  · simp

lemma mem_foldl_insertNew_of_mem {x : String} {l : List String} :
    ∀ {acc : List String}, x ∈ acc → x ∈ l.foldl (fun dd u => insertNew u dd) acc := by
  induction l with
  | nil => intro acc h; exact h
  | cons u t ih =>
    intro acc h
    rw [List.foldl_cons]
    exact ih (mem_insertNew_of_mem h)

lemma mem_foldl_insertNew_of_mem_list {x : String} :
    ∀ (l : List String) (acc : List String), x ∈ l →
      x ∈ l.foldl (fun dd u => insertNew u dd) acc := by
  intro l
  induction l with
  | nil => intro acc h; simp at h
  | cons u t ih =>
    intro acc h
    rw [List.foldl_cons]
    rcases List.mem_cons.mp h with rfl | ht
    · exact mem_foldl_insertNew_of_mem (mem_insertNew_self x acc)
    · exact ih _ ht

lemma crawlLoop_discovered_mono (oracle : String → Option (List String))
    (maxDepth : Int) (maxPages : Nat) :
    ∀ (v dc : List String) (q : List (String × Int)) (x : String), x ∈ dc →
      x ∈ (crawlLoop oracle maxDepth maxPages v dc q).discovered := by
  intro v dc q
  induction v, dc, q using crawlLoop.induct oracle maxDepth maxPages with
  | case1 v dc =>
    intro x h
    rw [crawlLoop]
    exact h
  | case2 v dc u d rest hlt hv ih =>
    intro x h
    rw [crawlLoop]
    simp only [if_pos hlt, if_pos hv]
    exact ih x h
  | case3 v dc u d rest hlt hv disc hor ih =>
    intro x h
    rw [crawlLoop]
    simp only [if_pos hlt, if_neg hv, hor]
    exact ih x (mem_insertNew_of_mem h)
  | case4 v dc u d rest hlt hv disc links hor disc2 newItems ih =>
    intro x h
    rw [crawlLoop]
    simp only [if_pos hlt, if_neg hv, hor]
    exact ih x (mem_foldl_insertNew_of_mem (mem_insertNew_of_mem h))
  | case5 v dc u d rest hlt =>
    intro x h
    rw [crawlLoop]
    simp only [if_neg hlt]
    exact h

/-- Every link the oracle reports for a fetched (visited) page ends up in
the discovered set, whatever its depth. -/
lemma crawlLoop_visited_links (oracle : String → Option (List String))
    (maxDepth : Int) (maxPages : Nat) :
    ∀ (v dc : List String) (q : List (String × Int)),
      (∀ u ∈ v, ∀ ls, oracle u = some ls → ∀ l ∈ ls, l ∈ dc) →
      ∀ u ∈ (crawlLoop oracle maxDepth maxPages v dc q).visited,
        ∀ ls, oracle u = some ls → ∀ l ∈ ls,
          l ∈ (crawlLoop oracle maxDepth maxPages v dc q).discovered := by
  intro v dc q
  induction v, dc, q using crawlLoop.induct oracle maxDepth maxPages with
  | case1 v dc =>
    intro hinv u hu ls hls l hl
    rw [crawlLoop] at hu ⊢
    exact hinv u hu ls hls l hl
  | case2 v dc u0 d rest hlt hv ih =>
    intro hinv u hu ls hls l hl
    rw [crawlLoop] at hu ⊢
    simp only [if_pos hlt, if_pos hv] at hu ⊢
    exact ih hinv u hu ls hls l hl
  | case3 v dc u0 d rest hlt hv disc hor ih =>
    intro hinv u hu ls hls l hl
    rw [crawlLoop] at hu ⊢
    simp only [if_pos hlt, if_neg hv, hor] at hu ⊢
    refine ih ?_ u hu ls hls l hl
    intro u2 hu2 ls2 hls2 l2 hl2
    rcases List.mem_append.mp hu2 with h2 | h2
    · exact mem_insertNew_of_mem (hinv u2 h2 ls2 hls2 l2 hl2)
    · rw [List.mem_singleton] at h2
      subst h2
      rw [hor] at hls2
      exact absurd hls2 (by simp)
  | case4 v dc u0 d rest hlt hv disc links hor disc2 newItems ih =>
    intro hinv u hu ls hls l hl
    rw [crawlLoop] at hu ⊢
    simp only [if_pos hlt, if_neg hv, hor] at hu ⊢
    refine ih ?_ u hu ls hls l hl
    intro u2 hu2 ls2 hls2 l2 hl2
    rcases List.mem_append.mp hu2 with h2 | h2
    · exact mem_foldl_insertNew_of_mem
        (mem_insertNew_of_mem (hinv u2 h2 ls2 hls2 l2 hl2))
    · rw [List.mem_singleton] at h2
      subst h2
      rw [hor] at hls2
      obtain rfl := Option.some.inj hls2
      exact mem_foldl_insertNew_of_mem_list _ _ hl2
  | case5 v dc u0 d rest hlt =>
    intro hinv u hu ls hls l hl
    rw [crawlLoop] at hu ⊢
    simp only [if_neg hlt] at hu ⊢
    exact hinv u hu ls hls l hl

lemma clampDepth_le_two (d : Int) : clampDepth d ≤ 2 := by
  unfold clampDepth
  split_ifs <;> omega

/-- Step form of the depth guard (robots.go:191-195): a fetched page whose
links exceed the depth limit contributes all its links to the discovered set
but enqueues none of them. -/
lemma crawlLoop_no_enqueue_beyond_depth
    (oracle : String → Option (List String)) (maxDepth : Int) (maxPages : Nat)
    (v dc : List String) (u : String) (d : Int) (rest : List (String × Int))
    (links : List String) (hlt : v.length < maxPages) (hv : u ∉ v)
    (hor : oracle u = some links) (hd : ¬ d + 1 ≤ maxDepth) :
    crawlLoop oracle maxDepth maxPages v dc ((u, d) :: rest) =
      crawlLoop oracle maxDepth maxPages (v ++ [u])
        (links.foldl (fun dd l => insertNew l dd) (insertNew u dc)) rest := by
  conv_lhs => rw [crawlLoop]
  simp only [if_pos hlt, if_neg hv, hor, hd, dite_false, if_false,
    List.append_nil]

/-- The chain root -> /a -> /b -> /c -> /d, each page linking to the next. -/
def chainOracle : String → Option (List String) := fun u =>
  if u = "https://h/" then some ["https://h/a"]
  else if u = "https://h/a" then some ["https://h/b"]
  else if u = "https://h/b" then some ["https://h/c"]
  else if u = "https://h/c" then some ["https://h/d"]
  else none

/-- C5: every accepted same-origin link found on a fetched page is added to
the discovered set regardless of its depth; the depth limit is clamped to at
most 2; a link beyond the depth limit is not enqueued for fetching (while
still being discovered); and concretely, with maxDepth=2 on the chain
root->a->b->c, the depth-3 link c appears in the discovered set but is never
itself fetched. -/
theorem crawl_depth_limit :
    (∀ (oracle : String → Option (List String)) (maxDepth maxPages : Int)
        (start : String),
      ∀ u ∈ (crawlSameOrigin oracle maxDepth maxPages start).visited,
        ∀ ls, oracle u = some ls → ∀ l ∈ ls,
          l ∈ (crawlSameOrigin oracle maxDepth maxPages start).discovered) ∧
    (∀ d : Int, clampDepth d ≤ 2) ∧
    (∀ (oracle : String → Option (List String)) (maxDepth : Int)
        (maxPages : Nat) (v dc : List String) (u : String) (d : Int)
        (rest : List (String × Int)) (links : List String),
      v.length < maxPages → u ∉ v → oracle u = some links →
      ¬ d + 1 ≤ maxDepth →
      crawlLoop oracle maxDepth maxPages v dc ((u, d) :: rest) =
        crawlLoop oracle maxDepth maxPages (v ++ [u])
          (links.foldl (fun dd l => insertNew l dd) (insertNew u dc)) rest) ∧
    ("https://h/c" ∈ (crawlSameOrigin chainOracle 2 20 "https://h/").discovered ∧
      "https://h/c" ∉ (crawlSameOrigin chainOracle 2 20 "https://h/").visited) := by
  refine ⟨?_, clampDepth_le_two, crawlLoop_no_enqueue_beyond_depth, ?_, ?_⟩
  · intro oracle maxDepth maxPages start
    exact crawlLoop_visited_links oracle (clampDepth maxDepth) _ [] [] [(start, 0)]
      (by intro u hu; simp at hu)
  · simp [crawlSameOrigin, crawlLoop, chainOracle, insertNew, clampDepth]
  · simp [crawlSameOrigin, crawlLoop, chainOracle, insertNew, clampDepth]

/-- Witness for C5: the depth-limit theorem applied to the fetched page /b
of the concrete chain puts its link /c into the discovered set. -/
theorem crawl_depth_limit_witness :
    "https://h/c" ∈ (crawlSameOrigin chainOracle 2 20 "https://h/").discovered :=
  crawl_depth_limit.1 chainOracle 2 20 "https://h/" "https://h/b"
    (by simp [crawlSameOrigin, crawlLoop, chainOracle, insertNew, clampDepth])
    ["https://h/c"] rfl "https://h/c" (by simp)

/-! ## Claim C6: sitemap index handling -/

lemma collectLocStep_inv (acceptLoc : String → Bool) (canonLoc : String → String)
    (acc : List String × List String) (loc : String)
    (h : acc.2.Nodup ∧ ∀ x ∈ acc.2, x ∈ acc.1) :
    (collectLocStep acceptLoc canonLoc acc loc).2.Nodup ∧
      ∀ x ∈ (collectLocStep acceptLoc canonLoc acc loc).2,
        x ∈ (collectLocStep acceptLoc canonLoc acc loc).1 := by
  unfold collectLocStep
  by_cases h1 : goTrimSpace loc = ""
  · simpa [h1] using h
  · by_cases h2 : acceptLoc (goTrimSpace loc) = true
    · by_cases h3 : canonLoc (goTrimSpace loc) ∈ acc.1
      · simpa [h1, h2, h3] using h
      · simp only [h1, h2, h3, if_false, if_true, not_true, not_false_iff,
          ite_false, ite_true]
        constructor
        · rw [List.nodup_append]
          refine ⟨h.1, by simp, ?_⟩
          intro x hx hxc
          rw [List.mem_singleton] at hxc
          subst hxc
          exact h3 (h.2 _ hx)
        · intro x hx
          rcases List.mem_append.mp hx with hx2 | hx2
          · exact List.mem_append_left _ (h.2 x hx2)
          · exact List.mem_append_right _ hx2
    · simpa [h1, h2] using h

lemma collectStep_inv (acceptLoc : String → Bool) (canonLoc : String → String) :
    ∀ (locs : List String) (seenU found : List String),
      found.Nodup → (∀ x ∈ found, x ∈ seenU) →
      (collectStep acceptLoc canonLoc locs seenU found).2.Nodup ∧
        ∀ x ∈ (collectStep acceptLoc canonLoc locs seenU found).2,
          x ∈ (collectStep acceptLoc canonLoc locs seenU found).1 := by
  intro locs
  suffices hgen : ∀ (locs : List String) (acc : List String × List String),
      acc.2.Nodup → (∀ x ∈ acc.2, x ∈ acc.1) →
      (locs.foldl (collectLocStep acceptLoc canonLoc) acc).2.Nodup ∧
        ∀ x ∈ (locs.foldl (collectLocStep acceptLoc canonLoc) acc).2,
          x ∈ (locs.foldl (collectLocStep acceptLoc canonLoc) acc).1 by
    intro seenU found h1 h2
    exact hgen locs (seenU, found) h1 h2
  intro locs
  induction locs with
  | nil => intro acc h1 h2; exact ⟨h1, h2⟩
  | cons loc rest ih =>
    intro acc h1 h2
    rw [List.foldl_cons]
    have := collectLocStep_inv acceptLoc canonLoc acc loc ⟨h1, h2⟩
    exact ih _ this.1 this.2

/-- The collected result list stays deduplicated (every collected URL is
recorded in the seen-URL set, and is only collected when not yet seen). -/
lemma sitemapLoop_found_nodup (oracle : String → Option (String × List String))
    (acceptLoc : String → Bool) (canonLoc : String → String) (maxFetch : Nat) :
    ∀ (seen q found seenU : List String) (f : Nat),
      found.Nodup → (∀ x ∈ found, x ∈ seenU) →
      (sitemapLoop oracle acceptLoc canonLoc maxFetch seen q found seenU f).found.Nodup := by
  intro seen q found seenU f
  induction seen, q, found, seenU, f
    using sitemapLoop.induct oracle acceptLoc canonLoc maxFetch with
  | case1 seen found seenU f =>
    intro h1 _
    rw [sitemapLoop]
    exact h1
  | case2 seen su rest found seenU f hf hor ih =>
    intro h1 h2
    rw [sitemapLoop]
    simp only [if_pos hf, hor]
    exact ih h1 h2
  | case3 seen su rest found seenU f hf root locs hor hroot p ih =>
    intro h1 h2
    rw [sitemapLoop]
    simp only [if_pos hf, hor, if_pos hroot]
    exact ih h1 h2
  | case4 seen su rest found seenU f hf root locs hor hroot p ih =>
    intro h1 h2
    rw [sitemapLoop]
    simp only [if_pos hf, hor, if_neg hroot]
    have hc := collectStep_inv acceptLoc canonLoc locs seenU found h1 h2
    exact ih hc.1 hc.2
  | case5 seen su rest found seenU f hf =>
    intro h1 _
    rw [sitemapLoop]
    simp only [if_neg hf]
    exact h1

/-- Step form of the index branch (sitemap.go:70-90): a fetched document
whose root is a sitemap index only extends the seen-sitemap set and the
queue via `indexStep`; the collected results and seen-URL set are untouched
at that step. -/
lemma sitemapLoop_index_no_collect
    (oracle : String → Option (String × List String))
    (acceptLoc : String → Bool) (canonLoc : String → String) (maxFetch : Nat)
    (seen : List String) (su : String) (rest found seenU : List String)
    (f : Nat) (root : String) (locs : List String)
    (hf : f < maxFetch) (hor : oracle su = some (root, locs))
    (hroot : eqFold root "sitemapindex" = true) :
    sitemapLoop oracle acceptLoc canonLoc maxFetch seen (su :: rest) found
        seenU f =
      sitemapLoop oracle acceptLoc canonLoc maxFetch
        (indexStep acceptLoc locs seen rest).1
        (indexStep acceptLoc locs seen rest).2 found seenU (f + 1) := by
  conv_lhs => rw [sitemapLoop]
  simp only [if_pos hf, hor, if_pos hroot]

/-- A sitemap index referencing two child sitemaps with disjoint loc sets
(the second child carries an internal duplicate). -/
def smOracle : String → Option (String × List String) := fun u =>
  if u = "https://h/sitemap.xml" then
    some ("sitemapindex", ["https://h/a.xml", "https://h/b.xml"])
  else if u = "https://h/a.xml" then some ("urlset", ["https://h/1", "https://h/2"])
  else if u = "https://h/b.xml" then
    some ("urlset", ["https://h/3", "https://h/4", "https://h/3"])
  else none

/-- C6: a sitemap-index document only enqueues its same-origin locs as
further sitemap sources and never collects them; the collected result list
is always deduplicated; and concretely, an index referencing two child
sitemaps with disjoint loc sets yields exactly the union of the children's
locs, with no index-level loc and no duplicates. -/
theorem sitemap_index_union :
    (∀ (oracle : String → Option (String × List String))
        (acceptLoc : String → Bool) (canonLoc : String → String)
        (maxFetch : Nat) (seen : List String) (su : String)
        (rest found seenU : List String) (f : Nat) (root : String)
        (locs : List String),
      f < maxFetch → oracle su = some (root, locs) →
      eqFold root "sitemapindex" = true →
      sitemapLoop oracle acceptLoc canonLoc maxFetch seen (su :: rest) found
          seenU f =
        sitemapLoop oracle acceptLoc canonLoc maxFetch
          (indexStep acceptLoc locs seen rest).1
          (indexStep acceptLoc locs seen rest).2 found seenU (f + 1)) ∧
    (∀ (oracle : String → Option (String × List String))
        (acceptLoc : String → Bool) (canonLoc : String → String)
        (maxFetch : Int) (seeds : List String),
      (fetchSitemaps oracle acceptLoc canonLoc maxFetch seeds).found.Nodup) ∧
    ((fetchSitemaps smOracle (fun _ => true) (fun s => s) 50
        ["https://h/sitemap.xml"]).found =
      ["https://h/1", "https://h/2", "https://h/3", "https://h/4"] ∧
     "https://h/a.xml" ∉ (fetchSitemaps smOracle (fun _ => true) (fun s => s) 50
        ["https://h/sitemap.xml"]).found ∧
     "https://h/b.xml" ∉ (fetchSitemaps smOracle (fun _ => true) (fun s => s) 50
        ["https://h/sitemap.xml"]).found) := by
  refine ⟨sitemapLoop_index_no_collect, ?_, ?_⟩
  · intro oracle acceptLoc canonLoc maxFetch seeds
    exact sitemapLoop_found_nodup oracle acceptLoc canonLoc _ _ _ [] [] 0
      List.nodup_nil (by intro x hx; simp at hx)
  · refine ⟨?_, ?_, ?_⟩ <;>
      simp [fetchSitemaps, sitemapLoop, smOracle, seedSitemaps, indexStep,
        collectStep, indexLocStep, collectLocStep, goTrimSpace, trimChars,
        eqFold, lowerStr, goIsSpace]

/-- Witness for C6: the index-branch step equation applied to the concrete
index document of `smOracle`. -/
theorem sitemap_index_union_witness :
    sitemapLoop smOracle (fun _ => true) (fun s => s) 50 ["https://h/sitemap.xml"]
        ["https://h/sitemap.xml"] [] [] 0 =
      sitemapLoop smOracle (fun _ => true) (fun s => s) 50
        (indexStep (fun _ => true) ["https://h/a.xml", "https://h/b.xml"]
          ["https://h/sitemap.xml"] []).1
        (indexStep (fun _ => true) ["https://h/a.xml", "https://h/b.xml"]
          ["https://h/sitemap.xml"] []).2 [] [] 1 :=
  sitemap_index_union.1 smOracle (fun _ => true) (fun s => s) 50
    ["https://h/sitemap.xml"] "https://h/sitemap.xml" [] [] [] 0
    "sitemapindex" ["https://h/a.xml", "https://h/b.xml"]
    (by decide) rfl (by decide)

/-! ## Claim C4: normalizePath idempotence and equivalence

`normalizePath` is NOT idempotent as claimed: a `..` segment can pop a
segment and leave a whitespace-trailing segment at the end of the output
(e.g. `/a /b/..` normalizes to `/a `), and re-normalizing trims that
whitespace first.  It is idempotent on outputs that are fixed by trimming,
and the remaining parts of the claim (equivalence after the cleanup
pipeline, the concrete example, failure exactly on empty-after-trim input)
hold. -/

def goodSeg (s : List Char) : Prop :=
  s ≠ [] ∧ s ≠ ['.'] ∧ s ≠ ['.', '.'] ∧ ∀ c ∈ s, c ≠ '/' ∧ c ≠ Char.ofNat 92

lemma splitSlash_slash (rest : List Char) :
    splitSlash ('/' :: rest) = [] :: splitSlash rest := rfl

lemma splitSlash_cons {c : Char} (hc : ¬ c = '/') (rest : List Char) :
    splitSlash (c :: rest) =
      (match splitSlash rest with
      | s :: ss => (c :: s) :: ss
      | [] => [[c]]) := by
  rw [splitSlash]
  exact fun h => hc h

lemma splitSlash_ne_nil : ∀ l : List Char, splitSlash l ≠ [] := by
  intro l
  induction l using splitSlash.induct with
  | case1 => simp [splitSlash]
  | case2 rest ih => simp [splitSlash_slash]
  | case3 c rest hc s ss heq ih =>
    rw [splitSlash_cons (fun h => hc h), heq]
    simp
  | case4 c rest hc heq ih =>
    rw [splitSlash_cons (fun h => hc h), heq]
    simp

lemma splitSlash_chars :
    ∀ l : List Char, ∀ s ∈ splitSlash l, ∀ c ∈ s, c ∈ l ∧ ¬ c = '/' := by
  intro l
  induction l using splitSlash.induct with
  | case1 =>
    intro s hs c hcs
    simp [splitSlash] at hs
    subst hs
    simp at hcs
  | case2 rest ih =>
    intro s hs c hcs
    rw [splitSlash_slash] at hs
    rcases List.mem_cons.mp hs with rfl | hs2
    · simp at hcs
    · have := ih s hs2 c hcs
      exact ⟨List.mem_cons_of_mem _ this.1, this.2⟩
  | case3 c0 rest hc s0 ss heq ih =>
    intro s hs c hcs
    rw [splitSlash_cons (fun h => hc h), heq] at hs
    rcases List.mem_cons.mp hs with rfl | hs2
    · rcases List.mem_cons.mp hcs with rfl | hcs2
      · exact ⟨List.mem_cons_self _ _, fun h => hc h⟩
      · have := ih s0 (heq ▸ List.mem_cons_self _ _) c hcs2
        exact ⟨List.mem_cons_of_mem _ this.1, this.2⟩
    · have := ih s (heq ▸ List.mem_cons_of_mem _ hs2) c hcs
      exact ⟨List.mem_cons_of_mem _ this.1, this.2⟩
  | case4 c0 rest hc heq ih =>
    intro s hs c hcs
    rw [splitSlash_cons (fun h => hc h), heq] at hs
    rw [List.mem_singleton] at hs
    subst hs
    rw [List.mem_singleton] at hcs
    subst hcs
    exact ⟨List.mem_cons_self _ _, fun h => hc h⟩

lemma splitSlash_slashfree :
    ∀ l : List Char, (∀ c ∈ l, ¬ c = '/') → splitSlash l = [l] := by
  intro l
  induction l with
  | nil => intro _; rfl
  | cons c rest ih =>
    intro h
    have hc : ¬ c = '/' := h c (List.mem_cons_self _ _)
    rw [splitSlash_cons hc, ih (fun x hx => h x (List.mem_cons_of_mem _ hx))]

lemma splitSlash_prepend :
    ∀ s : List Char, (∀ c ∈ s, ¬ c = '/') →
      ∀ (r ht : List Char) (tt : List (List Char)), splitSlash r = ht :: tt →
        splitSlash (s ++ r) = (s ++ ht) :: tt := by
  intro s
  induction s with
  | nil =>
    intro _ r ht tt h
    simpa using h
  | cons c s2 ih =>
    intro h r ht tt hr
    have hc : ¬ c = '/' := h c (List.mem_cons_self _ _)
    rw [List.cons_append, splitSlash_cons hc,
      ih (fun x hx => h x (List.mem_cons_of_mem _ hx)) r ht tt hr]
    rfl

lemma joinSlash_cons2 (s s2 : List Char) (rest : List (List Char)) :
    joinSlash (s :: s2 :: rest) = s ++ '/' :: joinSlash (s2 :: rest) := rfl

lemma joinSlash_roundtrip :
    ∀ L : List (List Char), L ≠ [] → (∀ s ∈ L, ∀ c ∈ s, ¬ c = '/') →
      splitSlash (joinSlash L) = L := by
  intro L
  induction L with
  | nil => intro h _; exact absurd rfl h
  | cons s L2 ih =>
    intro _ hfree
    cases L2 with
    | nil =>
      show splitSlash s = [s]
      exact splitSlash_slashfree s (hfree s (List.mem_cons_self _ _))
    | cons s2 L3 =>
      rw [joinSlash_cons2]
      have hrec : splitSlash (joinSlash (s2 :: L3)) = s2 :: L3 :=
        ih (by simp) (fun x hx => hfree x (List.mem_cons_of_mem _ hx))
      have hslash : splitSlash ('/' :: joinSlash (s2 :: L3)) =
          [] :: s2 :: L3 := by
        rw [splitSlash_slash, hrec]
      rw [splitSlash_prepend s (hfree s (List.mem_cons_self _ _)) _ _ _ hslash]
      simp

lemma cleanStep_good {st : List (List Char)} {s : List Char}
    (hst : ∀ x ∈ st, goodSeg x) (hs : ∀ c ∈ s, ¬ c = '/' ∧ ¬ c = Char.ofNat 92) :
    ∀ x ∈ cleanStep st s, goodSeg x := by
  unfold cleanStep
  split
  · exact hst
  · split
    · intro x hx
      exact hst x (List.drop_subset 1 st hx)
    · rename_i h1 h2
      intro x hx
      rcases List.mem_cons.mp hx with rfl | hx2
      · push_neg at h1
        exact ⟨h1.1, h1.2, h2, fun c hc => ⟨(hs c hc).1, (hs c hc).2⟩⟩
      · exact hst x hx2

lemma foldl_cleanStep_good :
    ∀ (segs : List (List Char)) (st : List (List Char)),
      (∀ s ∈ segs, ∀ c ∈ s, ¬ c = '/' ∧ ¬ c = Char.ofNat 92) →
      (∀ x ∈ st, goodSeg x) →
      ∀ x ∈ segs.foldl cleanStep st, goodSeg x := by
  intro segs
  induction segs with
  | nil => intro st _ hst; exact hst
  | cons s rest ih =>
    intro st hsegs hst
    rw [List.foldl_cons]
    exact ih (cleanStep st s) (fun x hx => hsegs x (List.mem_cons_of_mem _ hx))
      (cleanStep_good hst (hsegs s (List.mem_cons_self _ _)))

lemma foldl_cleanStep_of_good :
    ∀ (L : List (List Char)) (st : List (List Char)),
      (∀ s ∈ L, goodSeg s) → L.foldl cleanStep st = L.reverse ++ st := by
  intro L
  induction L with
  | nil => intro st _; simp
  | cons s L2 ih =>
    intro st hL
    rw [List.foldl_cons]
    have hg := hL s (List.mem_cons_self _ _)
    have hstep : cleanStep st s = s :: st := by
      unfold cleanStep
      rw [if_neg (by push_neg; exact ⟨hg.1, hg.2.1⟩), if_neg hg.2.2.1]
    rw [hstep, ih (s :: st) (fun x hx => hL x (List.mem_cons_of_mem _ hx))]
    simp

lemma collapseAux_cons (b : Bool) (c : Char) (rest : List Char) :
    collapseAux b (c :: rest) =
      (if c = '/' then
        (if b then collapseAux true rest else '/' :: collapseAux true rest)
      else c :: collapseAux false rest) := rfl

lemma collapseAux_slashfree :
    ∀ (l : List Char) (b : Bool), (∀ c ∈ l, ¬ c = '/') →
      collapseAux b l = l := by
  intro l
  induction l with
  | nil => intro b _; rfl
  | cons c rest ih =>
    intro b h
    have hc : ¬ c = '/' := h c (List.mem_cons_self _ _)
    rw [collapseAux_cons, if_neg hc,
      ih false (fun x hx => h x (List.mem_cons_of_mem _ hx))]

lemma collapseAux_prepend :
    ∀ (s : List Char), s ≠ [] → (∀ c ∈ s, ¬ c = '/') →
      ∀ (b : Bool) (r : List Char),
        collapseAux b (s ++ r) = s ++ collapseAux false r := by
  intro s
  induction s with
  | nil => intro h; exact absurd rfl h
  | cons c s2 ih =>
    intro _ h b r
    have hc : ¬ c = '/' := h c (List.mem_cons_self _ _)
    rw [List.cons_append, collapseAux_cons, if_neg hc]
    cases hs2 : s2 with
    | nil => simp
    | cons c2 s3 =>
      rw [← hs2, ih (by rw [hs2]; simp)
        (fun x hx => h x (List.mem_cons_of_mem _ hx)) false r]
      rfl

lemma collapseAux_join :
    ∀ L : List (List Char), (∀ s ∈ L, goodSeg s) →
      collapseAux true (joinSlash L) = joinSlash L := by
  intro L
  induction L with
  | nil => intro _; rfl
  | cons s L2 ih =>
    intro hL
    have hg := hL s (List.mem_cons_self _ _)
    cases L2 with
    | nil =>
      show collapseAux true s = s
      exact collapseAux_slashfree s true (fun c hc => (hg.2.2.2 c hc).1)
    | cons s2 L3 =>
      rw [joinSlash_cons2,
        collapseAux_prepend s hg.1 (fun c hc => (hg.2.2.2 c hc).1) true]
      have hstep : collapseAux false ('/' :: joinSlash (s2 :: L3)) =
          '/' :: collapseAux true (joinSlash (s2 :: L3)) := by
        rw [collapseAux_cons, if_pos rfl]
        simp
      rw [hstep, ih (fun x hx => hL x (List.mem_cons_of_mem _ hx))]

lemma collapse_rooted_join {L : List (List Char)} (hL : ∀ s ∈ L, goodSeg s) :
    collapseSlashes ('/' :: joinSlash L) = '/' :: joinSlash L := by
  unfold collapseSlashes
  have h1 : collapseAux false ('/' :: joinSlash L) =
      '/' :: collapseAux true (joinSlash L) := by
    rw [collapseAux_cons, if_pos rfl]
    simp
  rw [h1, collapseAux_join L hL]

lemma joinSlash_chars :
    ∀ (L : List (List Char)) (c : Char), c ∈ joinSlash L →
      c = '/' ∨ ∃ s ∈ L, c ∈ s := by
  intro L
  induction L with
  | nil => intro c hc; simp [joinSlash] at hc
  | cons s L2 ih =>
    intro c hc
    cases L2 with
    | nil =>
      right
      exact ⟨s, List.mem_cons_self _ _, hc⟩
    | cons s2 L3 =>
      rw [joinSlash_cons2] at hc
      rcases List.mem_append.mp hc with h | h
      · right
        exact ⟨s, List.mem_cons_self _ _, h⟩
      · rcases List.mem_cons.mp h with rfl | h2
        · left; rfl
        · rcases ih c h2 with h3 | ⟨s3, hs3, hcs3⟩
          · left; exact h3
          · right; exact ⟨s3, List.mem_cons_of_mem _ hs3, hcs3⟩

lemma collapseAux_subset :
    ∀ (l : List Char) (b : Bool) (c : Char), c ∈ collapseAux b l → c ∈ l := by
  intro l
  induction l with
  | nil => intro b c hc; simp [collapseAux] at hc
  | cons c0 rest ih =>
    intro b c hc
    rw [collapseAux_cons] at hc
    by_cases h0 : c0 = '/'
    · rw [if_pos h0] at hc
      subst h0
      cases b with
      | true =>
        simp only [if_pos rfl] at hc
        exact List.mem_cons_of_mem _ (ih true c hc)
      | false =>
        rw [if_neg (by decide)] at hc
        rcases List.mem_cons.mp hc with rfl | hc2
        · exact List.mem_cons_self _ _
        · exact List.mem_cons_of_mem _ (ih true c hc2)
    · rw [if_neg h0] at hc
      rcases List.mem_cons.mp hc with rfl | hc2
      · exact List.mem_cons_self _ _
      · exact List.mem_cons_of_mem _ (ih false c hc2)

lemma map_backslash_id :
    ∀ l : List Char, (∀ c ∈ l, ¬ c = Char.ofNat 92) →
      l.map (fun c => if c = Char.ofNat 92 then '/' else c) = l := by
  intro l
  induction l with
  | nil => intro _; rfl
  | cons c rest ih =>
    intro h
    rw [List.map_cons, if_neg (h c (List.mem_cons_self _ _)),
      ih (fun x hx => h x (List.mem_cons_of_mem _ hx))]

lemma cleanRooted_shape (l : List Char) (hl : ∀ c ∈ l, ¬ c = Char.ofNat 92) :
    ∃ L : List (List Char), (∀ s ∈ L, goodSeg s) ∧
      cleanRooted l = '/' :: joinSlash L := by
  refine ⟨(cleanStack (splitSlash (l.drop 1))).reverse, ?_, rfl⟩
  intro s hs
  rw [List.mem_reverse] at hs
  refine foldl_cleanStep_good (splitSlash (l.drop 1)) [] ?_ (fun x hx => absurd hx (List.not_mem_nil x)) s hs
  intro seg hseg c hc
  have h2 := splitSlash_chars (l.drop 1) seg hseg c hc
  exact ⟨h2.2, hl c (List.drop_subset 1 l h2.1)⟩

lemma normalizePath_of_shape (p : String) (h : ¬ trimChars p.data = []) :
    ∃ L : List (List Char), (∀ s ∈ L, goodSeg s) ∧
      canonPipeline p = '/' :: joinSlash L ∧
      normalizePath p = some ⟨'/' :: joinSlash L⟩ := by
  have hbs : ∀ c ∈ collapseSlashes
      ((if (trimChars p.data).head? = some '/' then trimChars p.data
        else '/' :: trimChars p.data).map
        fun c => if c = Char.ofNat 92 then '/' else c),
      ¬ c = Char.ofNat 92 := by
    intro c hc
    have hc2 := collapseAux_subset _ false c hc
    obtain ⟨c0, _, hc0⟩ := List.mem_map.mp hc2
    by_cases h0 : c0 = Char.ofNat 92
    · rw [if_pos h0] at hc0
      subst hc0
      decide
    · rw [if_neg h0] at hc0
      subst hc0
      exact h0
  obtain ⟨L, hgood, heq⟩ := cleanRooted_shape _ hbs
  refine ⟨L, hgood, heq, ?_⟩
  unfold normalizePath
  rw [if_neg h]
  show some _ = _
  rw [show canonPipeline p = '/' :: joinSlash L from heq]
  simp

lemma cleanRooted_join {L : List (List Char)} (hgood : ∀ s ∈ L, goodSeg s) :
    cleanRooted ('/' :: joinSlash L) = '/' :: joinSlash L := by
  unfold cleanRooted
  show '/' :: joinSlash (cleanStack (splitSlash (joinSlash L))).reverse =
    '/' :: joinSlash L
  cases hL0 : L with
  | nil => rfl
  | cons s L2 =>
    rw [← hL0,
      joinSlash_roundtrip L (by rw [hL0]; simp)
        (fun s hs c hc => ((hgood s hs).2.2.2 c hc).1),
      show cleanStack L = L.foldl cleanStep [] from rfl,
      foldl_cleanStep_of_good L [] hgood]
    simp

lemma normalizePath_fixpoint {L : List (List Char)}
    (hgood : ∀ s ∈ L, goodSeg s)
    (htrim : trimChars ('/' :: joinSlash L) = '/' :: joinSlash L) :
    normalizePath ⟨'/' :: joinSlash L⟩ = some ⟨'/' :: joinSlash L⟩ := by
  have hsfree : ∀ c ∈ '/' :: joinSlash L, ¬ c = Char.ofNat 92 := by
    intro c hc
    rcases List.mem_cons.mp hc with rfl | hc2
    · decide
    · rcases joinSlash_chars L c hc2 with rfl | ⟨s, hs, hcs⟩
      · decide
      · exact ((hgood s hs).2.2.2 c hcs).2
  have hdata : (String.mk ('/' :: joinSlash L)).data = '/' :: joinSlash L := rfl
  have hne : ¬ trimChars (String.mk ('/' :: joinSlash L)).data = [] := by
    rw [hdata, htrim]
    simp
  have hcp : canonPipeline ⟨'/' :: joinSlash L⟩ = '/' :: joinSlash L := by
    unfold canonPipeline
    rw [hdata, htrim]
    show cleanRooted (collapseSlashes (List.map
      (fun c => if c = Char.ofNat 92 then '/' else c) ('/' :: joinSlash L))) =
      '/' :: joinSlash L
    rw [map_backslash_id _ hsfree, collapse_rooted_join hgood,
      cleanRooted_join hgood]
  unfold normalizePath
  rw [if_neg hne]
  show some _ = _
  rw [show canonPipeline ⟨'/' :: joinSlash L⟩ = '/' :: joinSlash L from hcp]
  simp

/-- Counterexample to C4 as stated: `/a /b/..` normalizes successfully to
`/a ` (trailing space kept by `path.Clean`), but normalizing `/a ` trims the
space and returns `/a`, so normalizePath applied to its own output differs
from the output. -/
theorem normalizePath_idem_cex :
    normalizePath "/a /b/.." = some "/a " ∧
    normalizePath "/a " = some "/a" ∧
    ("/a " : String) ≠ "/a" := by
  refine ⟨by decide, by decide, by decide⟩

/-- C4 (amended): `normalizePath` is idempotent on every successful output
that is fixed by trimming (no leading/trailing Unicode whitespace);
`normalizePath "//a//b/../c"` and `normalizePath "/a/c"` both return
`/a/c`; normalization fails exactly on input that is empty after trimming;
and any two inputs equivalent under the cleanup pipeline (trim, leading
slash, backslash unification, slash collapsing, dot-segment resolution) map
to the same output. -/
theorem normalizePath_normalization :
    (∀ p n, normalizePath p = some n → goTrimSpace n = n →
      normalizePath n = some n) ∧
    (normalizePath "//a//b/../c" = some "/a/c" ∧
      normalizePath "/a/c" = some "/a/c") ∧
    (∀ p, normalizePath p = none ↔ goTrimSpace p = "") ∧
    (∀ p q, ¬ trimChars p.data = [] → ¬ trimChars q.data = [] →
      canonPipeline p = canonPipeline q →
      normalizePath p = normalizePath q) := by
  refine ⟨?_, ⟨by decide, by decide⟩, ?_, ?_⟩
  · intro p n hp ht
    have hne : ¬ trimChars p.data = [] := by
      intro h0
      unfold normalizePath at hp
      rw [if_pos h0] at hp
      exact Option.noConfusion hp
    obtain ⟨L, hgood, _, heq⟩ := normalizePath_of_shape p hne
    rw [heq] at hp
    obtain rfl := Option.some.inj hp
    have htrim : trimChars ('/' :: joinSlash L) = '/' :: joinSlash L := by
      have h2 := congrArg String.data ht
      simpa [goTrimSpace] using h2
    exact normalizePath_fixpoint hgood htrim
  · intro p
    unfold normalizePath
    constructor
    · intro h
      by_cases h0 : trimChars p.data = []
      · simp [goTrimSpace, h0]
      · rw [if_neg h0] at h
        exact Option.noConfusion h
    · intro h
      have h0 : trimChars p.data = [] := by
        have := congrArg String.data h
        simpa [goTrimSpace] using this
      rw [if_pos h0]
  · intro p q hp hq hpq
    unfold normalizePath
    rw [if_neg hp, if_neg hq, hpq]

/-- Witness for C4 (amended): idempotence applied at the trim-fixed output
`/a/c`, and pipeline equivalence applied to `//a//b/../c` versus `/a/c`. -/
theorem normalizePath_normalization_witness :
    (goTrimSpace "/a/c" = "/a/c") ∧
    normalizePath "/a/c" = some "/a/c" ∧
    (¬ trimChars ("//a//b/../c" : String).data = []) ∧
    normalizePath "//a//b/../c" = normalizePath "/a/c" :=
  ⟨by decide,
   normalizePath_normalization.1 "//a//b/../c" "/a/c" (by decide) (by decide),
   by decide,
   normalizePath_normalization.2.2.2 "//a//b/../c" "/a/c" (by decide) (by decide)
     (by decide)⟩

end Wdf
